import Mathlib

/-!
# A shallow embedding of the CBOR decoder `decoder.go`

The byte source (`bufio.Reader` over an `io.Reader`) is the list of bytes that
are still unread.  Every reading function returns, next to its value, the bytes
it left unread.  Go's `(value, error)` returns become `Res`; a run-time panic of
`make` is a third outcome, because it is neither a value nor an error return.

Go's `uint64` is `Nat` with an explicit `% 2 ^ 64` where a conversion happens,
`*big.Int` is `Int`, `[]byte` and `string` are lists of bytes, `any` is `Value`.
-/

namespace CborDemo

/-- One byte of the source. -/
abbrev Byte : Type := Fin 256

/-- The errors the decoder can return: `io.EOF`, `io.ErrUnexpectedEOF` and the
`fmt.Errorf("additional info of 28 is not supported")` of the resolver. -/
inductive Err where
  | eof
  | unexpectedEOF
  | info28
  deriving DecidableEq, Repr

/-- Outcome of a read: a value together with the unread bytes, an error return,
or a run-time panic raised while allocating a slice. -/
inductive Res (α : Type) where
  | ok (v : α) (rest : List Byte)
  | error (e : Err)
  | crash
  deriving DecidableEq, Repr

/-- The dynamic values stored in `any`: `uint64`, `*big.Int`, `[]byte`,
`string`, `[]interface{}` and the untyped `nil`. -/
inductive Value where
  | uint (n : Nat)
  | negint (z : Int)
  | bytes (bs : List Byte)
  | text (bs : List Byte)
  | array (xs : List Value)
  | nil
  deriving Repr

/-- Modelled from the spec: the constant `MajorTypeUnsignedInt` is declared in a
file that is not part of the sources; major types are numbered 0..7 in header order. -/
def MajorTypeUnsignedInt : Nat := 0
/-- Modelled from the spec: the constant `MajorTypeNegativeInt` (major type 1). -/
def MajorTypeNegativeInt : Nat := 1
/-- Modelled from the spec: the constant `MajorTypeByteString` (major type 2). -/
def MajorTypeByteString : Nat := 2
/-- Modelled from the spec: the constant `MajorTypeTextString` (major type 3). -/
def MajorTypeTextString : Nat := 3
/-- Modelled from the spec: the constant `MajorTypeArray` (major type 4). -/
def MajorTypeArray : Nat := 4
/-- Modelled from the spec: the constant `MajorTypeMap` (major type 5). -/
def MajorTypeMap : Nat := 5
/-- Modelled from the spec: the constant `MajorTypeTag` (major type 6). -/
def MajorTypeTag : Nat := 6
/-- Modelled from the spec: the constant `MajorTypeOther` (major type 7). -/
def MajorTypeOther : Nat := 7

/-- The largest allocation the Go runtime accepts on a 64-bit target
(`maxAlloc`, 48 address bits); `makeslice` panics beyond it. -/
def maxAlloc : Nat := 2 ^ 48

/-- Whether `make([]T, len)` with elements of `elemSize` bytes panics
(`makeslice: len out of range`).  Running out of physical memory below the
limit is not modelled. -/
def makeslicePanics (elemSize len : Nat) : Bool :=
  decide (maxAlloc < elemSize * len)

/-- `bufio.Reader.ReadByte`: the next byte, or `io.EOF` at the end of the input. -/
def readByte : List Byte → Res Byte
  | [] => .error .eof
  | b :: rest => .ok b rest

/-- `io.ReadFull(bf, buf)` with `len(buf) = n`: exactly `n` bytes, `io.EOF` when
none could be read, `io.ErrUnexpectedEOF` when only some could.  A buffer of
length zero is filled without reading. -/
def readFull (bf : List Byte) (n : Nat) : Res (List Byte) :=
  if n ≤ bf.length then .ok (bf.take n) (bf.drop n)
  else if bf.length = 0 then .error .eof
  else .error .unexpectedEOF

/-- `binary.BigEndian.Uint16`: `uint16(b[1]) | uint16(b[0])<<8`. -/
def bigEndianUint16 (b : List Byte) : Nat :=
  (b.getD 1 0).val ||| ((b.getD 0 0).val <<< 8)

/-- `binary.BigEndian.Uint32`: the four bytes or-ed at shifts 0, 8, 16, 24. -/
def bigEndianUint32 (b : List Byte) : Nat :=
  (b.getD 3 0).val ||| ((b.getD 2 0).val <<< 8) ||| ((b.getD 1 0).val <<< 16)
    ||| ((b.getD 0 0).val <<< 24)

/-- `binary.BigEndian.Uint64`: the eight bytes or-ed at shifts 0, 8, .., 56. -/
def bigEndianUint64 (b : List Byte) : Nat :=
  (b.getD 7 0).val ||| ((b.getD 6 0).val <<< 8) ||| ((b.getD 5 0).val <<< 16)
    ||| ((b.getD 4 0).val <<< 24) ||| ((b.getD 3 0).val <<< 32)
    ||| ((b.getD 2 0).val <<< 40) ||| ((b.getD 1 0).val <<< 48)
    ||| ((b.getD 0 0).val <<< 56)

/-- `Decoder.decodeUnsignedInteger`.  The argument is `int(initialByte & 0x1f)`
at every call, hence never negative. -/
def decodeUnsignedInteger (bf : List Byte) (additionalInfo : Nat) : Res Nat :=
  if additionalInfo = 24 then
    match readByte bf with
    | .ok b rest => .ok b.val rest
    | .error e => .error e
    | .crash => .crash
  else if additionalInfo = 25 then
    match readFull bf 2 with
    | .ok b rest => .ok (bigEndianUint16 b) rest
    | .error e => .error e
    | .crash => .crash
  else if additionalInfo = 26 then
    match readFull bf 4 with
    | .ok b rest => .ok (bigEndianUint32 b) rest
    | .error e => .error e
    | .crash => .crash
  else if additionalInfo = 27 then
    match readFull bf 8 with
    | .ok b rest => .ok (bigEndianUint64 b) rest
    | .error e => .error e
    | .crash => .crash
  else if additionalInfo = 28 then
    .error .info28
  else
    .ok (additionalInfo % 2 ^ 64) bf

/-- `Decoder.decodeNegativeInteger`: `Neg` of the magnitude, then `Sub` of one,
on arbitrary-precision integers. -/
def decodeNegativeInteger (bf : List Byte) (additionalInfo : Nat) : Res Int :=
  match decodeUnsignedInteger bf additionalInfo with
  | .ok v rest =>
    let negV : Int := -(Int.ofNat v)
    .ok (negV - 1) rest
  | .error e => .error e
  | .crash => .crash

/-- `Decoder.decodeByteString`: resolve the length, allocate the buffer, fill it. -/
def decodeByteString (bf : List Byte) (additionalInfo : Nat) : Res (List Byte) :=
  match decodeUnsignedInteger bf additionalInfo with
  | .ok length rest =>
    if makeslicePanics 1 length then .crash
    else
      match readFull rest length with
      | .ok data rest2 => .ok data rest2
      | .error e => .error e
      | .crash => .crash
  | .error e => .error e
  | .crash => .crash

/-- `Decoder.decodeTextString`: as `decodeByteString`, the bytes converted with
`string(data)`, which copies them unchanged. -/
def decodeTextString (bf : List Byte) (additionalInfo : Nat) : Res (List Byte) :=
  match decodeUnsignedInteger bf additionalInfo with
  | .ok length rest =>
    if makeslicePanics 1 length then .crash
    else
      match readFull rest length with
      | .ok data rest2 => .ok data rest2
      | .error e => .error e
      | .crash => .crash
  | .error e => .error e
  | .crash => .crash

/-- The loop of `decodeArray`: `n` more calls of the item decoder, each on what
the previous one left; `acc` holds the slots already assigned. -/
def decodeArrayLoop (item : List Byte → Res Value) :
    Nat → List Byte → List Value → Res (List Value)
  | 0, bf, acc => .ok acc bf
  | n + 1, bf, acc =>
    match item bf with
    | .ok v rest => decodeArrayLoop item n rest (acc ++ [v])
    | .error e => .error e
    | .crash => .crash

/-- `Decoder.decodeArray`, with the item decoder it calls as a parameter: resolve
the count, allocate `[]interface{}` (16 bytes per element), decode the elements. -/
def decodeArrayWith (item : List Byte → Res Value) (bf : List Byte)
    (additionalInfo : Nat) : Res (List Value) :=
  match decodeUnsignedInteger bf additionalInfo with
  | .ok length rest =>
    if makeslicePanics 16 length then .crash
    else decodeArrayLoop item length rest []
  | .error e => .error e
  | .crash => .crash

/-- Lift a typed result into the `interface{}` result of `decodeItem`. -/
def Res.toValue {α : Type} (f : α → Value) : Res α → Res Value
  | .ok v rest => .ok (f v) rest
  | .error e => .error e
  | .crash => .crash

/-- The switch of `decodeItem` after the header byte has been read; a major type
without a case leaves `v` and `err` nil. -/
def dispatchItem (item : List Byte → Res Value) (initialByte : Byte)
    (bf : List Byte) : Res Value :=
  let majorType := initialByte.val >>> 5
  let additionalInfo := initialByte.val &&& 0x1f
  if majorType = MajorTypeUnsignedInt then
    (decodeUnsignedInteger bf additionalInfo).toValue .uint
  else if majorType = MajorTypeNegativeInt then
    (decodeNegativeInteger bf additionalInfo).toValue .negint
  else if majorType = MajorTypeByteString then
    (decodeByteString bf additionalInfo).toValue .bytes
  else if majorType = MajorTypeTextString then
    (decodeTextString bf additionalInfo).toValue .text
  else if majorType = MajorTypeArray then
    (decodeArrayWith item bf additionalInfo).toValue .array
  else
    .ok .nil bf

/-- `Decoder.decodeItem` with a bound on the nesting depth: `fuel` levels of
arrays inside arrays are followed. -/
def decodeItemFuel : Nat → List Byte → Res Value
  | 0, _ => .error .eof
  | fuel + 1, bf =>
    match readByte bf with
    | .ok initialByte rest => dispatchItem (decodeItemFuel fuel) initialByte rest
    | .error e => .error e
    | .crash => .crash

/-- `Decoder.decodeItem`: every nested item lies behind at least one header
byte, so a nesting bound above the input length is never reached
(`decodeItemFuel_stable`). -/
def decodeItem (bf : List Byte) : Res Value :=
  decodeItemFuel (bf.length + 1) bf

/-- `Decoder.decodeArray`. -/
def decodeArray (bf : List Byte) (additionalInfo : Nat) : Res (List Value) :=
  decodeArrayWith decodeItem bf additionalInfo

/-- The switch inside the loop of `decode`, with its early returns. -/
def dispatchTop (initialByte : Byte) (bf : List Byte) : Res Value :=
  let majorType := initialByte.val >>> 5
  let additionalInfo := initialByte.val &&& 0x1f
  if majorType = MajorTypeUnsignedInt then
    match decodeUnsignedInteger bf additionalInfo with
    | .ok v rest => .ok (.uint v) rest
    | .error e => .error e
    | .crash => .crash
  else if majorType = MajorTypeNegativeInt then
    match decodeNegativeInteger bf additionalInfo with
    | .ok v rest => .ok (.negint v) rest
    | .error e => .error e
    | .crash => .crash
  else if majorType = MajorTypeByteString then
    match decodeByteString bf additionalInfo with
    | .ok v rest => .ok (.bytes v) rest
    | .error e => .error e
    | .crash => .crash
  else if majorType = MajorTypeTextString then
    match decodeTextString bf additionalInfo with
    | .ok v rest => .ok (.text v) rest
    | .error e => .error e
    | .crash => .crash
  else if majorType = MajorTypeArray then
    match decodeArray bf additionalInfo with
    | .ok v rest => .ok (.array v) rest
    | .error e => .error e
    | .crash => .crash
  else if majorType = MajorTypeMap then
    .ok .nil bf
  else if majorType = MajorTypeTag then
    .ok .nil bf
  else if majorType = MajorTypeOther then
    .ok .nil bf
  else
    .ok .nil bf

/-- The `for` loop of `decode`, at most `fuel` iterations; `result` is
`dec.result`. -/
def decodeLoop : Nat → List Byte → List Value → Res (List Value)
  | 0, _, _ => .error .eof
  | fuel + 1, bf, result =>
    match readByte bf with
    | .error .eof => .ok result []
    | .error e => .error e
    | .crash => .crash
    | .ok initialByte rest =>
      match dispatchTop initialByte rest with
      | .ok v rest2 => decodeLoop fuel rest2 (result ++ [v])
      | .error e => .error e
      | .crash => .crash

/-- `Decoder.decode`: every iteration reads a header byte, so the loop ends
within `length + 1` iterations. -/
def decode (bf : List Byte) (result : List Value) : Res (List Value) :=
  decodeLoop (bf.length + 1) bf result

/-- `Decoder.Decode` of a fresh decoder over `data`: the decoded sequence, or the
error with a nil sequence. -/
def Decode (data : List Byte) : Res (List Value) :=
  match decode data [] with
  | .ok result rest => .ok result rest
  | .error e => .error e
  | .crash => .crash

/-- The big-endian value of a byte string as the spec words it: the sum of
`b_i * 256 ^ (w - 1 - i)` over its `w` bytes. -/
def bigEndianValue : List Byte → Nat
  | [] => 0
  | b :: bs => b.val * 256 ^ bs.length + bigEndianValue bs

/-- The array decoder as the spec words it: `n` consecutive calls of the item
decoder, each starting where the previous one stopped; the values in call order
with what the last call left, or `none` when some call does not succeed. -/
def runItems (item : List Byte → Res Value) : Nat → List Byte → Option (List Value × List Byte)
  | 0, bf => some ([], bf)
  | n + 1, bf =>
    match item bf with
    | .ok v rest =>
      match runItems item n rest with
      | some (vs, r) => some (v :: vs, r)
      | none => none
    | .error _ => none
    | .crash => none

/-- The stream decoder as the spec words it: call `decodeItem` again and again
from the start of the input and stop with success when the end of the input is
met at an item boundary. -/
def decodeByItems : Nat → List Byte → Res (List Value)
  | 0, _ => .error .eof
  | _ + 1, [] => .ok [] []
  | fuel + 1, b :: t =>
    match decodeItem (b :: t) with
    | .ok v rest =>
      match decodeByItems fuel rest with
      | .ok vs r => .ok (v :: vs) r
      | .error e => .error e
      | .crash => .crash
    | .error e => .error e
    | .crash => .crash

/-- The `Decoder` struct: the buffered reader `bf` as the bytes still unread, and
the accumulated `result`. -/
structure Decoder where
  bf : List Byte
  result : List Value

/-- `NewDecoder`: a decoder reading `data` from its start; `result` is nil. -/
def NewDecoder (data : List Byte) : Decoder :=
  { bf := data, result := [] }

/-- `Decoder.Decode` as a method of the struct: `dec.result` is replaced by a
fresh empty slice before `decode` runs on the reader of `dec`. -/
def Decoder.Decode (dec : Decoder) : Res (List Value) :=
  let dec1 : Decoder := { dec with result := [] }
  match decode dec1.bf dec1.result with
  | .ok result rest => .ok result rest
  | .error e => .error e
  | .crash => .crash

/-- The header split written in `decode` and again in `decodeItem`:
`majorType := initialByte >> 5`, `additionalInfo := initialByte & 0x1f`. -/
def headerSplit (initialByte : Byte) : Nat × Nat :=
  (initialByte.val >>> 5, initialByte.val &&& 0x1f)

mutual
/-- The number of decoded values in a value at all nesting levels, the value
itself included. -/
def Value.count : Value → Nat
  | .array xs => 1 + countList xs
  | .uint _ => 1
  | .negint _ => 1
  | .bytes _ => 1
  | .text _ => 1
  | .nil => 1
/-- The number of decoded values in a sequence at all nesting levels. -/
def countList : List Value → Nat
  | [] => 0
  | v :: vs => v.count + countList vs
end

mutual
/-- The nesting depth of a value: one for a value that is no array, one more
than its deepest element for an array. -/
def Value.depth : Value → Nat
  | .array xs => 1 + depthList xs
  | .uint _ => 1
  | .negint _ => 1
  | .bytes _ => 1
  | .text _ => 1
  | .nil => 1
/-- The largest nesting depth among the values of a sequence. -/
def depthList : List Value → Nat
  | [] => 0
  | v :: vs => max v.depth (depthList vs)
end

/-- `decodeItemFuel` with the outcome of an exhausted nesting bound left open. -/
def decodeItemFuelWith (junk : Res Value) : Nat → List Byte → Res Value
  | 0, _ => junk
  | fuel + 1, bf =>
    match readByte bf with
    | .ok initialByte rest => dispatchItem (decodeItemFuelWith junk fuel) initialByte rest
    | .error e => .error e
    | .crash => .crash

/-- `decodeLoop` with the outcome of an exhausted iteration bound left open. -/
def decodeLoopWith (junk : Res (List Value)) : Nat → List Byte → List Value → Res (List Value)
  | 0, _, _ => junk
  | fuel + 1, bf, result =>
    match readByte bf with
    | .error .eof => .ok result []
    | .error e => .error e
    | .crash => .crash
    | .ok initialByte rest =>
      match dispatchTop initialByte rest with
      | .ok v rest2 => decodeLoopWith junk fuel rest2 (result ++ [v])
      | .error e => .error e
      | .crash => .crash

/-! ## Theorems -/

theorem or_shiftLeft_eq_add (x y k : Nat) (h : x < 2 ^ k) :
    x ||| (y <<< k) = y * 2 ^ k + x := by
  rw [Nat.shiftLeft_eq, Nat.or_comm, Nat.mul_comm y, ← Nat.mul_add_lt_is_or h]

theorem bigEndianUint16_eq (b0 b1 : Byte) :
    bigEndianUint16 [b0, b1] = b0.val * 256 + b1.val := by
  have h1 := b1.isLt
  simp only [bigEndianUint16, List.getD_cons_zero, List.getD_cons_succ]
  rw [or_shiftLeft_eq_add _ _ 8 (by omega)]
  norm_num

theorem bigEndianUint32_eq (b0 b1 b2 b3 : Byte) :
    bigEndianUint32 [b0, b1, b2, b3]
      = b0.val * 256 ^ 3 + b1.val * 256 ^ 2 + b2.val * 256 + b3.val := by
  have h0 := b0.isLt
  have h1 := b1.isLt
  have h2 := b2.isLt
  have h3 := b3.isLt
  simp only [bigEndianUint32, List.getD_cons_zero, List.getD_cons_succ]
  rw [or_shiftLeft_eq_add _ _ 8 (by omega)]
  rw [or_shiftLeft_eq_add _ _ 16 (by omega)]
  rw [or_shiftLeft_eq_add _ _ 24 (by omega)]
  norm_num
  omega

theorem bigEndianUint64_eq (b0 b1 b2 b3 b4 b5 b6 b7 : Byte) :
    bigEndianUint64 [b0, b1, b2, b3, b4, b5, b6, b7]
      = b0.val * 256 ^ 7 + b1.val * 256 ^ 6 + b2.val * 256 ^ 5 + b3.val * 256 ^ 4
        + b4.val * 256 ^ 3 + b5.val * 256 ^ 2 + b6.val * 256 + b7.val := by
  have h0 := b0.isLt
  have h1 := b1.isLt
  have h2 := b2.isLt
  have h3 := b3.isLt
  have h4 := b4.isLt
  have h5 := b5.isLt
  have h6 := b6.isLt
  have h7 := b7.isLt
  simp only [bigEndianUint64, List.getD_cons_zero, List.getD_cons_succ]
  rw [or_shiftLeft_eq_add _ _ 8 (by omega)]
  rw [or_shiftLeft_eq_add _ _ 16 (by omega)]
  rw [or_shiftLeft_eq_add _ _ 24 (by omega)]
  rw [or_shiftLeft_eq_add _ _ 32 (by omega)]
  rw [or_shiftLeft_eq_add _ _ 40 (by omega)]
  rw [or_shiftLeft_eq_add _ _ 48 (by omega)]
  rw [or_shiftLeft_eq_add _ _ 56 (by omega)]
  norm_num
  omega

/-- An additional-info value below 24 falls through to the default branch. -/
theorem decodeUnsignedInteger_of_le_23 (a : Nat) (s : List Byte) (ha : a ≤ 23) :
    decodeUnsignedInteger s a = .ok a s := by
  have h : a % 2 ^ 64 = a := Nat.mod_eq_of_lt (by omega)
  simp only [decodeUnsignedInteger, h]
  repeat rw [if_neg (by omega)]

/-- Claim C1: for every additional-info value `a` in 0..23 and every byte source
`s`, `decodeUnsignedInteger` succeeds, returns `a` itself and leaves `s` unread. -/
theorem decodeUnsignedInteger_literal (a : Nat) (s : List Byte) (ha : a ≤ 23) :
    decodeUnsignedInteger s a = .ok a s :=
  decodeUnsignedInteger_of_le_23 a s ha

theorem decodeUnsignedInteger_literal_witness :
    23 ≤ 23 ∧ decodeUnsignedInteger [0x01, 0x02] 23 = .ok 23 [0x01, 0x02] :=
  ⟨by decide, decodeUnsignedInteger_literal 23 [0x01, 0x02] (by decide)⟩

theorem byte_shiftLeft_lt (b : Byte) (k n : Nat) (hk : k + 8 ≤ n) : b.val <<< k < 2 ^ n := by
  rw [Nat.shiftLeft_eq]
  have hb : b.val < 2 ^ 8 := b.isLt
  calc b.val * 2 ^ k < 2 ^ 8 * 2 ^ k := Nat.mul_lt_mul_of_pos_right hb (Nat.two_pow_pos k)
    _ = 2 ^ (8 + k) := (Nat.pow_add 2 8 k).symm
    _ ≤ 2 ^ n := Nat.pow_le_pow_right (by decide) (by omega)

theorem byte_lt (b : Byte) (n : Nat) (hk : 8 ≤ n) : b.val < 2 ^ n := by
  have := byte_shiftLeft_lt b 0 n (by omega)
  simpa using this

theorem bigEndianUint16_lt (b : List Byte) : bigEndianUint16 b < 2 ^ 64 := by
  unfold bigEndianUint16
  exact Nat.or_lt_two_pow (byte_lt _ _ (by decide)) (byte_shiftLeft_lt _ _ _ (by decide))

theorem bigEndianUint32_lt (b : List Byte) : bigEndianUint32 b < 2 ^ 64 := by
  unfold bigEndianUint32
  refine Nat.or_lt_two_pow (Nat.or_lt_two_pow (Nat.or_lt_two_pow (byte_lt _ _ (by decide)) ?_) ?_) ?_
    <;> exact byte_shiftLeft_lt _ _ _ (by decide)

theorem bigEndianUint64_lt (b : List Byte) : bigEndianUint64 b < 2 ^ 64 := by
  unfold bigEndianUint64
  refine Nat.or_lt_two_pow (Nat.or_lt_two_pow (Nat.or_lt_two_pow (Nat.or_lt_two_pow
    (Nat.or_lt_two_pow (Nat.or_lt_two_pow (Nat.or_lt_two_pow (byte_lt _ _ (by decide)) ?_) ?_) ?_)
      ?_) ?_) ?_) ?_
    <;> exact byte_shiftLeft_lt _ _ _ (by decide)

theorem readFull_ok_iff (bf : List Byte) (n : Nat) (b rest : List Byte) :
    readFull bf n = .ok b rest ↔ n ≤ bf.length ∧ b = bf.take n ∧ rest = bf.drop n := by
  unfold readFull
  split_ifs with h1 h2
  · simp [h1, eq_comm]
  · simp [h1]
  · simp [h1]

/-- A successful resolve yields a 64-bit value and leaves a suffix of its input. -/
theorem decodeUnsignedInteger_ok (bf : List Byte) (a n : Nat) (rest : List Byte)
    (h : decodeUnsignedInteger bf a = .ok n rest) :
    n < 2 ^ 64 ∧ ∃ pre, bf = pre ++ rest := by
  unfold decodeUnsignedInteger at h
  split_ifs at h
  · rcases bf with _ | ⟨b0, r⟩
    · simp [readByte] at h
    · simp only [readByte, Res.ok.injEq] at h
      obtain ⟨rfl, rfl⟩ := h
      exact ⟨byte_lt _ _ (by decide), [b0], rfl⟩
  · split at h
    · rename_i b r hr
      simp only [Res.ok.injEq] at h
      obtain ⟨rfl, rfl⟩ := h
      obtain ⟨_, _, rfl⟩ := (readFull_ok_iff _ _ _ _).1 hr
      exact ⟨bigEndianUint16_lt _, bf.take 2, (List.take_append_drop 2 bf).symm⟩
    · simp at h
    · simp at h
  · split at h
    · rename_i b r hr
      simp only [Res.ok.injEq] at h
      obtain ⟨rfl, rfl⟩ := h
      obtain ⟨_, _, rfl⟩ := (readFull_ok_iff _ _ _ _).1 hr
      exact ⟨bigEndianUint32_lt _, bf.take 4, (List.take_append_drop 4 bf).symm⟩
    · simp at h
    · simp at h
  · split at h
    · rename_i b r hr
      simp only [Res.ok.injEq] at h
      obtain ⟨rfl, rfl⟩ := h
      obtain ⟨_, _, rfl⟩ := (readFull_ok_iff _ _ _ _).1 hr
      exact ⟨bigEndianUint64_lt _, bf.take 8, (List.take_append_drop 8 bf).symm⟩
    · simp at h
    · simp at h
  · simp only [Res.ok.injEq] at h
    obtain ⟨rfl, rfl⟩ := h
    exact ⟨Nat.mod_lt _ (by decide), [], rfl⟩

theorem readByte_ne_crash (bf : List Byte) : readByte bf ≠ .crash := by
  cases bf <;> simp [readByte]

theorem readFull_ne_crash (bf : List Byte) (n : Nat) : readFull bf n ≠ .crash := by
  unfold readFull
  split_ifs <;> simp

theorem decodeUnsignedInteger_ne_crash (bf : List Byte) (a : Nat) :
    decodeUnsignedInteger bf a ≠ .crash := by
  unfold decodeUnsignedInteger
  split_ifs
  · have := readByte_ne_crash bf
    split <;> simp_all
  · have := readFull_ne_crash bf 2
    split <;> simp_all
  · have := readFull_ne_crash bf 4
    split <;> simp_all
  · have := readFull_ne_crash bf 8
    split <;> simp_all
  · simp
  · simp

theorem decodeUnsignedInteger_24 (b0 : Byte) (rest : List Byte) :
    decodeUnsignedInteger (b0 :: rest) 24 = .ok b0.val rest := by
  simp [decodeUnsignedInteger, readByte]

theorem decodeUnsignedInteger_25 (b0 b1 : Byte) (rest : List Byte) :
    decodeUnsignedInteger (b0 :: b1 :: rest) 25 = .ok (b0.val * 256 + b1.val) rest := by
  simp [decodeUnsignedInteger, readFull, bigEndianUint16_eq]

theorem decodeUnsignedInteger_26 (b0 b1 b2 b3 : Byte) (rest : List Byte) :
    decodeUnsignedInteger (b0 :: b1 :: b2 :: b3 :: rest) 26
      = .ok (b0.val * 256 ^ 3 + b1.val * 256 ^ 2 + b2.val * 256 + b3.val) rest := by
  simp [decodeUnsignedInteger, readFull, bigEndianUint32_eq]

theorem readFull_8 (b0 b1 b2 b3 b4 b5 b6 b7 : Byte) (rest : List Byte) :
    readFull (b0 :: b1 :: b2 :: b3 :: b4 :: b5 :: b6 :: b7 :: rest) 8 = .ok [b0, b1, b2, b3, b4, b5, b6, b7] rest := by
  simp [readFull]

theorem decodeUnsignedInteger_27 (b0 b1 b2 b3 b4 b5 b6 b7 : Byte) (rest : List Byte) :
    decodeUnsignedInteger (b0 :: b1 :: b2 :: b3 :: b4 :: b5 :: b6 :: b7 :: rest) 27
      = .ok (b0.val * 256 ^ 7 + b1.val * 256 ^ 6 + b2.val * 256 ^ 5 + b3.val * 256 ^ 4
        + b4.val * 256 ^ 3 + b5.val * 256 ^ 2 + b6.val * 256 + b7.val) rest := by
  unfold decodeUnsignedInteger
  rw [if_neg (by decide), if_neg (by decide), if_neg (by decide), if_pos rfl, readFull_8]
  show Res.ok (bigEndianUint64 [b0, b1, b2, b3, b4, b5, b6, b7]) rest = _
  rw [bigEndianUint64_eq]

theorem bigEndianValue_8 (b0 b1 b2 b3 b4 b5 b6 b7 : Byte) :
    bigEndianValue [b0, b1, b2, b3, b4, b5, b6, b7]
      = b0.val * 256 ^ 7 + b1.val * 256 ^ 6 + b2.val * 256 ^ 5 + b3.val * 256 ^ 4
        + b4.val * 256 ^ 3 + b5.val * 256 ^ 2 + b6.val * 256 + b7.val := by
  simp only [bigEndianValue, List.length_cons, List.length_nil, Nat.zero_add, Nat.reduceAdd,
    Nat.pow_zero, Nat.mul_one, Nat.add_zero, Nat.pow_one, Nat.add_assoc]

theorem bigEndianValue_4 (b0 b1 b2 b3 : Byte) :
    bigEndianValue [b0, b1, b2, b3]
      = b0.val * 256 ^ 3 + b1.val * 256 ^ 2 + b2.val * 256 + b3.val := by
  simp only [bigEndianValue, List.length_cons, List.length_nil, Nat.zero_add, Nat.reduceAdd,
    Nat.pow_zero, Nat.mul_one, Nat.add_zero, Nat.pow_one, Nat.add_assoc]

theorem bigEndianValue_2 (b0 b1 : Byte) :
    bigEndianValue [b0, b1] = b0.val * 256 + b1.val := by
  simp only [bigEndianValue, List.length_cons, List.length_nil, Nat.zero_add, Nat.reduceAdd,
    Nat.pow_zero, Nat.mul_one, Nat.add_zero, Nat.pow_one, Nat.add_assoc]

theorem bigEndianValue_1 (b0 : Byte) : bigEndianValue [b0] = b0.val := by
  simp only [bigEndianValue, List.length_cons, List.length_nil, Nat.zero_add, Nat.reduceAdd,
    Nat.pow_zero, Nat.mul_one, Nat.add_zero, Nat.pow_one, Nat.add_assoc]

/-- Claim C2: for additional-info 24, 25, 26, 27 with width `w` = 1, 2, 4, 8 and a
source holding at least `w` bytes, `decodeUnsignedInteger` returns the big-endian
value of the first `w` bytes (the sum of `b_i * 256 ^ (w - 1 - i)`) and leaves
exactly the bytes after them. -/
theorem decodeUnsignedInteger_bigEndian (a w : Nat) (s : List Byte)
    (haw : (a, w) ∈ [(24, 1), (25, 2), (26, 4), (27, 8)]) (hs : w ≤ s.length) :
    decodeUnsignedInteger s a = .ok (bigEndianValue (s.take w)) (s.drop w) := by
  simp only [List.mem_cons, Prod.mk.injEq, List.mem_singleton, List.not_mem_nil, or_false] at haw
  rcases haw with ⟨rfl, rfl⟩ | ⟨rfl, rfl⟩ | ⟨rfl, rfl⟩ | ⟨rfl, rfl⟩
  · rcases s with _ | ⟨b0, rest⟩
    · simp at hs
    · rw [decodeUnsignedInteger_24]
      show _ = Res.ok (bigEndianValue [b0]) rest
      rw [bigEndianValue_1]
  · rcases s with _ | ⟨b0, _ | ⟨b1, rest⟩⟩
    · simp at hs
    · simp at hs
    · rw [decodeUnsignedInteger_25]
      show _ = Res.ok (bigEndianValue [b0, b1]) rest
      rw [bigEndianValue_2]
  · rcases s with _ | ⟨b0, _ | ⟨b1, _ | ⟨b2, _ | ⟨b3, rest⟩⟩⟩⟩
    · simp at hs
    · simp at hs
    · simp at hs
    · simp at hs
    · rw [decodeUnsignedInteger_26]
      show _ = Res.ok (bigEndianValue [b0, b1, b2, b3]) rest
      rw [bigEndianValue_4]
  · rcases s with _ | ⟨b0, _ | ⟨b1, _ | ⟨b2, _ | ⟨b3, _ | ⟨b4, _ | ⟨b5, _ | ⟨b6, _ | ⟨b7, rest⟩⟩⟩⟩⟩⟩⟩⟩
    · simp at hs
    · simp at hs
    · simp at hs
    · simp at hs
    · simp at hs
    · simp at hs
    · simp at hs
    · simp at hs
    · rw [decodeUnsignedInteger_27]
      show _ = Res.ok (bigEndianValue [b0, b1, b2, b3, b4, b5, b6, b7]) rest
      rw [bigEndianValue_8]

theorem decodeUnsignedInteger_bigEndian_witness :
    (25, 2) ∈ [(24, 1), (25, 2), (26, 4), (27, 8)]
      ∧ 2 ≤ ([0x01, 0x02, 0x03] : List Byte).length
      ∧ decodeUnsignedInteger [0x01, 0x02, 0x03] 25
        = .ok (bigEndianValue (List.take 2 [0x01, 0x02, 0x03]))
            (List.drop 2 [0x01, 0x02, 0x03])
      ∧ bigEndianValue (List.take 2 [0x01, 0x02, 0x03]) = 258 :=
  ⟨by decide, by decide,
    decodeUnsignedInteger_bigEndian 25 2 [0x01, 0x02, 0x03] (by decide) (by decide), rfl⟩

/-- Claim C3: when the magnitude resolves to `n`, `decodeNegativeInteger` returns
the integer `-n - 1` without wrap-around and leaves what the unsigned resolver
leaves; `n` is at most `2 ^ 64 - 1`; the same holds through `decodeItem` for a
header of major type 1; additional-info 27 followed by eight `0xFF` bytes yields
`-2 ^ 64`. -/
theorem decodeNegativeInteger_exact (bf : List Byte) (a n : Nat) (rest : List Byte)
    (h : decodeUnsignedInteger bf a = .ok n rest) :
    n ≤ 2 ^ 64 - 1
      ∧ decodeNegativeInteger bf a = .ok (-(n : Int) - 1) rest
      ∧ (∀ b : Byte, b.val >>> 5 = 1 → b.val &&& 0x1f = a →
          decodeItem (b :: bf) = .ok (.negint (-(n : Int) - 1)) rest)
      ∧ (∀ t : List Byte,
          decodeNegativeInteger ([0xFF, 0xFF, 0xFF, 0xFF, 0xFF, 0xFF, 0xFF, 0xFF] ++ t) 27
            = .ok (-(2 : Int) ^ 64) t) := by
  have hlt := (decodeUnsignedInteger_ok bf a n rest h).1
  have hneg : decodeNegativeInteger bf a = .ok (-(n : Int) - 1) rest := by
    simp only [decodeNegativeInteger, h, Int.ofNat_eq_coe]
  refine ⟨by omega, hneg, ?_, ?_⟩
  · intro b hb hai
    simp only [decodeItem, decodeItemFuel, readByte, dispatchItem, hb, hai, MajorTypeUnsignedInt,
      MajorTypeNegativeInt, hneg, Res.toValue]
    simp
  · intro t
    have h27 := decodeUnsignedInteger_27 0xFF 0xFF 0xFF 0xFF 0xFF 0xFF 0xFF 0xFF t
    simp only [decodeNegativeInteger, List.cons_append, List.nil_append, h27]
    rfl

theorem decodeNegativeInteger_exact_witness :
    decodeUnsignedInteger [0x18, 0x62] 24 = .ok 0x18 [0x62]
      ∧ decodeNegativeInteger [0x18, 0x62] 24 = .ok (-(0x18 : Int) - 1) [0x62] :=
  ⟨rfl, (decodeNegativeInteger_exact [0x18, 0x62] 24 0x18 [0x62] rfl).2.1⟩

theorem makeslicePanics_eq_false (elemSize len : Nat) (h : elemSize * len ≤ maxAlloc) :
    makeslicePanics elemSize len = false := by
  simp only [makeslicePanics, decide_eq_false_iff_not, Nat.not_lt]
  exact h

theorem makeslicePanics_eq_true (elemSize len : Nat) (h : maxAlloc < elemSize * len) :
    makeslicePanics elemSize len = true := by
  simp only [makeslicePanics, decide_eq_true_eq]
  exact h

theorem readFull_of_le (bf : List Byte) (n : Nat) (h : n ≤ bf.length) :
    readFull bf n = .ok (bf.take n) (bf.drop n) := by
  simp only [readFull, if_pos h]

/-- Claim C4, amended: when the additional-info resolves to a length `L` that
does not exceed the allocation limit and the source holds at least `L` bytes
after the length prefix, `decodeByteString` returns exactly the next `L` bytes in
order and leaves what follows them, and `decodeTextString` returns the same bytes
with the same consumption. -/
theorem decodeByteString_exact (s : List Byte) (a L : Nat) (rest : List Byte)
    (h : decodeUnsignedInteger s a = .ok L rest) (hL : L ≤ rest.length)
    (hA : L ≤ maxAlloc) :
    decodeByteString s a = .ok (rest.take L) (rest.drop L)
      ∧ decodeTextString s a = .ok (rest.take L) (rest.drop L)
      ∧ (rest.take L).length = L
      ∧ rest = rest.take L ++ rest.drop L := by
  have hp : makeslicePanics 1 L = false := makeslicePanics_eq_false 1 L (by omega)
  refine ⟨?_, ?_, ?_, (List.take_append_drop L rest).symm⟩
  · simp only [decodeByteString, h, hp, readFull_of_le rest L hL]
    simp
  · simp only [decodeTextString, h, hp, readFull_of_le rest L hL]
    simp
  · simp [hL]

theorem decodeByteString_exact_witness :
    decodeUnsignedInteger [0x41, 0x42] 1 = .ok 1 [0x41, 0x42]
      ∧ 1 ≤ ([0x41, 0x42] : List Byte).length
      ∧ 1 ≤ maxAlloc
      ∧ decodeByteString [0x41, 0x42] 1 = .ok [0x41] [0x42]
      ∧ decodeTextString [0x41, 0x42] 1 = .ok [0x41] [0x42] :=
  ⟨rfl, by decide, by unfold maxAlloc; omega,
    (decodeByteString_exact [0x41, 0x42] 1 1 [0x41, 0x42] rfl (by decide)
      (by unfold maxAlloc; omega)).1,
    (decodeByteString_exact [0x41, 0x42] 1 1 [0x41, 0x42] rfl (by decide)
      (by unfold maxAlloc; omega)).2.1⟩

theorem decodeByteString_crash (s : List Byte) (a L : Nat) (rest : List Byte)
    (h : decodeUnsignedInteger s a = .ok L rest) (hA : maxAlloc < L) :
    decodeByteString s a = .crash := by
  have hp : makeslicePanics 1 L = true := makeslicePanics_eq_true 1 L (by omega)
  simp only [decodeByteString, h, hp]
  simp

theorem decodeUnsignedInteger_above_maxAlloc (t : List Byte) :
    decodeUnsignedInteger (0 :: 1 :: 0 :: 0 :: 0 :: 0 :: 0 :: 1 :: t) 27
      = .ok (2 ^ 48 + 1) t := by
  rw [decodeUnsignedInteger_27]
  norm_num

/-- Claim C4, counterexample: the length prefix resolves to `2 ^ 48 + 1`, the
source holds that many bytes after it, and `decodeByteString` panics in `make`
instead of returning them. -/
theorem decodeByteString_alloc_counterexample :
    decodeUnsignedInteger (0 :: 1 :: 0 :: 0 :: 0 :: 0 :: 0 :: 1 :: List.replicate (2 ^ 48 + 1) 0) 27
        = .ok (2 ^ 48 + 1) (List.replicate (2 ^ 48 + 1) 0)
      ∧ 2 ^ 48 + 1 ≤ (List.replicate (2 ^ 48 + 1) (0 : Byte)).length
      ∧ decodeByteString
          (0 :: 1 :: 0 :: 0 :: 0 :: 0 :: 0 :: 1 :: List.replicate (2 ^ 48 + 1) 0) 27
        = .crash :=
  ⟨decodeUnsignedInteger_above_maxAlloc _,
    Nat.le_of_eq (List.length_replicate _ _).symm,
    decodeByteString_crash _ 27 (2 ^ 48 + 1) _ (decodeUnsignedInteger_above_maxAlloc _)
      (Nat.lt_succ_self _)⟩

theorem decodeUnsignedInteger_length (bf : List Byte) (a n : Nat) (rest : List Byte)
    (h : decodeUnsignedInteger bf a = .ok n rest) : rest.length ≤ bf.length := by
  obtain ⟨_, pre, rfl⟩ := decodeUnsignedInteger_ok bf a n rest h
  simp

theorem decodeNegativeInteger_length (bf : List Byte) (a : Nat) (z : Int) (rest : List Byte)
    (h : decodeNegativeInteger bf a = .ok z rest) : rest.length ≤ bf.length := by
  unfold decodeNegativeInteger at h
  split at h
  · rename_i v r hv
    simp only [Res.ok.injEq] at h
    obtain ⟨_, rfl⟩ := h
    exact decodeUnsignedInteger_length _ _ _ _ hv
  · simp at h
  · simp at h

theorem decodeByteString_length (bf : List Byte) (a : Nat) (v rest : List Byte)
    (h : decodeByteString bf a = .ok v rest) : rest.length ≤ bf.length := by
  unfold decodeByteString at h
  split at h
  · rename_i n r hn
    have h1 := decodeUnsignedInteger_length _ _ _ _ hn
    split_ifs at h
    split at h
    · rename_i d r2 hd
      simp only [Res.ok.injEq] at h
      obtain ⟨_, rfl⟩ := h
      obtain ⟨_, _, rfl⟩ := (readFull_ok_iff _ _ _ _).1 hd
      simp only [List.length_drop]
      omega
    · simp at h
    · simp at h
  · simp at h
  · simp at h

theorem decodeTextString_eq (bf : List Byte) (a : Nat) :
    decodeTextString bf a = decodeByteString bf a := rfl

theorem decodeArrayLoop_length (item : List Byte → Res Value)
    (hitem : ∀ s v r, item s = .ok v r → r.length ≤ s.length) :
    ∀ (n : Nat) (s : List Byte) (acc vs : List Value) (r : List Byte),
      decodeArrayLoop item n s acc = .ok vs r → r.length ≤ s.length := by
  intro n
  induction n with
  | zero =>
    intro s acc vs r h
    simp only [decodeArrayLoop, Res.ok.injEq] at h
    rw [h.2]
  | succ n ih =>
    intro s acc vs r h
    simp only [decodeArrayLoop] at h
    split at h
    · rename_i v r1 hv
      exact Nat.le_trans (ih _ _ _ _ h) (hitem _ _ _ hv)
    · simp at h
    · simp at h

theorem decodeArrayWith_length (item : List Byte → Res Value)
    (hitem : ∀ s v r, item s = .ok v r → r.length ≤ s.length)
    (bf : List Byte) (a : Nat) (vs : List Value) (r : List Byte)
    (h : decodeArrayWith item bf a = .ok vs r) : r.length ≤ bf.length := by
  unfold decodeArrayWith at h
  split at h
  · rename_i n r1 hn
    have h1 := decodeUnsignedInteger_length _ _ _ _ hn
    split_ifs at h
    exact Nat.le_trans (decodeArrayLoop_length item hitem _ _ _ _ _ h) h1
  · simp at h
  · simp at h

theorem toValue_ok {α : Type} (f : α → Value) (x : Res α) (v : Value) (r : List Byte)
    (h : x.toValue f = .ok v r) : ∃ w, x = .ok w r ∧ v = f w := by
  cases x with
  | ok w r1 =>
    simp only [Res.toValue, Res.ok.injEq] at h
    exact ⟨w, by rw [h.2], h.1.symm⟩
  | error e => simp [Res.toValue] at h
  | crash => simp [Res.toValue] at h

theorem dispatchItem_length (item : List Byte → Res Value)
    (hitem : ∀ s v r, item s = .ok v r → r.length ≤ s.length)
    (b : Byte) (bf : List Byte) (v : Value) (r : List Byte)
    (h : dispatchItem item b bf = .ok v r) : r.length ≤ bf.length := by
  unfold dispatchItem at h
  simp only at h
  split_ifs at h
  · obtain ⟨w, hw, _⟩ := toValue_ok _ _ _ _ h
    exact decodeUnsignedInteger_length _ _ _ _ hw
  · obtain ⟨w, hw, _⟩ := toValue_ok _ _ _ _ h
    exact decodeNegativeInteger_length _ _ _ _ hw
  · obtain ⟨w, hw, _⟩ := toValue_ok _ _ _ _ h
    exact decodeByteString_length _ _ _ _ hw
  · obtain ⟨w, hw, _⟩ := toValue_ok _ _ _ _ h
    exact decodeByteString_length _ _ _ _ hw
  · obtain ⟨w, hw, _⟩ := toValue_ok _ _ _ _ h
    exact decodeArrayWith_length item hitem _ _ _ _ hw
  · simp only [Res.ok.injEq] at h
    rw [h.2]

/-- Every successful item decode consumes at least the header byte. -/
theorem decodeItemFuel_length :
    ∀ (fuel : Nat) (s : List Byte) (v : Value) (r : List Byte),
      decodeItemFuel fuel s = .ok v r → r.length < s.length := by
  intro fuel
  induction fuel with
  | zero =>
    intro s v r h
    simp [decodeItemFuel] at h
  | succ f ih =>
    intro s v r h
    cases s with
    | nil => simp [decodeItemFuel, readByte] at h
    | cons b t =>
      simp only [decodeItemFuel, readByte] at h
      have := dispatchItem_length (decodeItemFuel f)
        (fun s v r hs => Nat.le_of_lt (ih s v r hs)) b t v r h
      simp only [List.length_cons]
      omega

theorem decodeItem_length (s : List Byte) (v : Value) (r : List Byte)
    (h : decodeItem s = .ok v r) : r.length < s.length :=
  decodeItemFuel_length _ s v r h

theorem decodeArrayLoop_congr (item1 item2 : List Byte → Res Value)
    (hlen : ∀ s v r, item1 s = .ok v r → r.length ≤ s.length) :
    ∀ (n : Nat) (s : List Byte) (acc : List Value),
      (∀ s2 : List Byte, s2.length ≤ s.length → item1 s2 = item2 s2) →
      decodeArrayLoop item1 n s acc = decodeArrayLoop item2 n s acc := by
  intro n
  induction n with
  | zero => intro s acc _; rfl
  | succ n ih =>
    intro s acc heq
    simp only [decodeArrayLoop]
    rw [← heq s (Nat.le_refl _)]
    cases h1 : item1 s with
    | ok v r =>
      simp only
      exact ih r _ (fun s2 h2 => heq s2 (Nat.le_trans h2 (hlen _ _ _ h1)))
    | error e => rfl
    | crash => rfl

theorem dispatchItem_congr (item1 item2 : List Byte → Res Value)
    (hlen : ∀ s v r, item1 s = .ok v r → r.length ≤ s.length)
    (b : Byte) (bf : List Byte)
    (heq : ∀ s2 : List Byte, s2.length ≤ bf.length → item1 s2 = item2 s2) :
    dispatchItem item1 b bf = dispatchItem item2 b bf := by
  unfold dispatchItem
  simp only
  split_ifs
  · rfl
  · rfl
  · rfl
  · rfl
  · congr 1
    unfold decodeArrayWith
    cases hn : decodeUnsignedInteger bf (b.val &&& 0x1f) with
    | ok n r =>
      simp only
      split_ifs
      · rfl
      · exact decodeArrayLoop_congr item1 item2 hlen n r []
          (fun s2 h2 => heq s2 (Nat.le_trans h2 (decodeUnsignedInteger_length _ _ _ _ hn)))
    | error e => rfl
    | crash => rfl
  · rfl

/-- The nesting bound is immaterial once it exceeds the input length. -/
theorem decodeItemFuel_stable :
    ∀ (fuel : Nat) (s : List Byte), s.length < fuel → decodeItemFuel fuel s = decodeItem s := by
  intro fuel
  induction fuel using Nat.strong_induction_on with
  | _ fuel ih =>
    intro s hs
    cases fuel with
    | zero => omega
    | succ g =>
      cases s with
      | nil => rfl
      | cons b t =>
        simp only [List.length_cons] at hs
        show dispatchItem (decodeItemFuel g) b t
          = dispatchItem (decodeItemFuel (t.length + 1)) b t
        apply dispatchItem_congr _ _
          (fun s v r h => Nat.le_of_lt (decodeItemFuel_length g s v r h))
        intro s2 h2
        rw [ih g (Nat.lt_succ_self g) s2 (by omega),
          ih (t.length + 1) (by omega) s2 (by omega)]

/-- The recursion equation of `decodeItem`: read the header byte, dispatch, and
decode nested items with `decodeItem` itself. -/
theorem decodeItem_cons (b : Byte) (t : List Byte) :
    decodeItem (b :: t) = dispatchItem decodeItem b t := by
  show dispatchItem (decodeItemFuel (t.length + 1)) b t = dispatchItem decodeItem b t
  apply dispatchItem_congr _ _
    (fun s v r h => Nat.le_of_lt (decodeItemFuel_length _ s v r h))
  intro s2 h2
  exact decodeItemFuel_stable _ s2 (by omega)

theorem decodeItem_nil : decodeItem [] = .error .eof := rfl

theorem runItems_length (item : List Byte → Res Value) :
    ∀ (n : Nat) (s : List Byte) (vs : List Value) (r : List Byte),
      runItems item n s = some (vs, r) → vs.length = n := by
  intro n
  induction n with
  | zero =>
    intro s vs r h
    simp only [runItems, Option.some.injEq, Prod.mk.injEq] at h
    rw [← h.1]; rfl
  | succ n ih =>
    intro s vs r h
    simp only [runItems] at h
    split at h
    · rename_i v rest hv
      split at h
      · rename_i vs1 r1 h1
        simp only [Option.some.injEq, Prod.mk.injEq] at h
        rw [← h.1, List.length_cons, ih _ _ _ h1]
      · simp at h
    · simp at h
    · simp at h

theorem decodeArrayLoop_of_runItems (item : List Byte → Res Value) :
    ∀ (n : Nat) (s : List Byte) (acc vs : List Value) (r : List Byte),
      runItems item n s = some (vs, r) → decodeArrayLoop item n s acc = .ok (acc ++ vs) r := by
  intro n
  induction n with
  | zero =>
    intro s acc vs r h
    simp only [runItems, Option.some.injEq, Prod.mk.injEq] at h
    simp only [decodeArrayLoop, ← h.1, ← h.2, List.append_nil]
  | succ n ih =>
    intro s acc vs r h
    simp only [runItems] at h
    split at h
    · rename_i v rest hv
      split at h
      · rename_i vs1 r1 h1
        simp only [Option.some.injEq, Prod.mk.injEq] at h
        simp only [decodeArrayLoop, hv, ih _ (acc ++ [v]) _ _ h1, ← h.1, ← h.2,
          List.append_assoc, List.singleton_append]
      · simp at h
    · simp at h
    · simp at h

theorem dispatchItem_array (item : List Byte → Res Value) (b : Byte) (bf : List Byte)
    (hb : b.val >>> 5 = 4) :
    dispatchItem item b bf = (decodeArrayWith item bf (b.val &&& 0x1f)).toValue .array := by
  simp [dispatchItem, hb, MajorTypeUnsignedInt, MajorTypeNegativeInt, MajorTypeByteString,
    MajorTypeTextString, MajorTypeArray]

/-- Claim C5, amended: when the element count resolves to `N` with `16 * N`
within the allocation limit and `N` consecutive `decodeItem` calls succeed on the
input after the count, `decodeArray` returns exactly the `N` values of those
calls in call order and leaves what the last call left; the same holds through
`decodeItem` for a header of major type 4, and `82 81 01 02` decodes to
`[[1], 2]`. -/
theorem decodeArray_items (s : List Byte) (a N : Nat) (rest : List Byte) (vs : List Value)
    (rest2 : List Byte) (h : decodeUnsignedInteger s a = .ok N rest)
    (hA : 16 * N ≤ maxAlloc) (hrun : runItems decodeItem N rest = some (vs, rest2)) :
    decodeArray s a = .ok vs rest2
      ∧ vs.length = N
      ∧ (∀ b : Byte, b.val >>> 5 = 4 → b.val &&& 0x1f = a →
          decodeItem (b :: s) = .ok (.array vs) rest2)
      ∧ decodeItem [0x82, 0x81, 0x01, 0x02] = .ok (.array [.array [.uint 1], .uint 2]) [] := by
  have hp : makeslicePanics 16 N = false := makeslicePanics_eq_false 16 N hA
  have harr : decodeArray s a = .ok vs rest2 := by
    simp only [decodeArray, decodeArrayWith, h, hp,
      decodeArrayLoop_of_runItems decodeItem N rest [] vs rest2 hrun, List.nil_append]
    simp
  refine ⟨harr, runItems_length _ _ _ _ _ hrun, ?_, rfl⟩
  intro b hb hai
  rw [decodeItem_cons, dispatchItem_array _ _ _ hb, hai]
  show (decodeArray s a).toValue .array = _
  rw [harr]
  rfl

theorem decodeArray_items_witness :
    decodeUnsignedInteger [0x01, 0x02, 0x03] 2 = .ok 2 [0x01, 0x02, 0x03]
      ∧ 16 * 2 ≤ maxAlloc
      ∧ runItems decodeItem 2 [0x01, 0x02, 0x03] = some ([.uint 1, .uint 2], [0x03])
      ∧ decodeArray [0x01, 0x02, 0x03] 2 = .ok [.uint 1, .uint 2] [0x03] :=
  ⟨rfl, by unfold maxAlloc; omega, rfl,
    (decodeArray_items [0x01, 0x02, 0x03] 2 2 [0x01, 0x02, 0x03] [.uint 1, .uint 2] [0x03]
      rfl (by unfold maxAlloc; omega) rfl).1⟩

theorem decodeItem_zero (t : List Byte) : decodeItem (0 :: t) = .ok (.uint 0) t := by
  rw [decodeItem_cons]
  rfl

theorem runItems_replicate_zero :
    ∀ (n : Nat) (t : List Byte),
      runItems decodeItem n (List.replicate n 0 ++ t) = some (List.replicate n (.uint 0), t) := by
  intro n
  induction n with
  | zero => intro t; rfl
  | succ n ih =>
    intro t
    simp only [List.replicate_succ, List.cons_append, runItems, decodeItem_zero, ih]

theorem decodeArrayWith_crash (item : List Byte → Res Value) (s : List Byte) (a N : Nat)
    (rest : List Byte) (h : decodeUnsignedInteger s a = .ok N rest) (hA : maxAlloc < 16 * N) :
    decodeArrayWith item s a = .crash := by
  have hp : makeslicePanics 16 N = true := makeslicePanics_eq_true 16 N hA
  simp only [decodeArrayWith, h, hp]
  simp

theorem decodeUnsignedInteger_above_arrayLimit (t : List Byte) :
    decodeUnsignedInteger (0 :: 0 :: 16 :: 0 :: 0 :: 0 :: 0 :: 1 :: t) 27
      = .ok (2 ^ 44 + 1) t := by
  rw [decodeUnsignedInteger_27]
  rfl

theorem runItems_replicate_zero_nil (n : Nat) :
    runItems decodeItem n (List.replicate n 0) = some (List.replicate n (.uint 0), []) := by
  have h := runItems_replicate_zero n []
  rw [List.append_nil] at h
  exact h

/-- Claim C5, counterexample: the count resolves to `2 ^ 44 + 1`, that many
consecutive `decodeItem` calls succeed on the bytes `00 00 ..` that follow, and
`decodeArray` panics in `make` instead of returning an array. -/
theorem decodeArray_alloc_counterexample :
    decodeUnsignedInteger
        (0 :: 0 :: 16 :: 0 :: 0 :: 0 :: 0 :: 1 :: List.replicate (2 ^ 44 + 1) 0) 27
        = .ok (2 ^ 44 + 1) (List.replicate (2 ^ 44 + 1) 0)
      ∧ runItems decodeItem (2 ^ 44 + 1) (List.replicate (2 ^ 44 + 1) 0)
        = some (List.replicate (2 ^ 44 + 1) (.uint 0), [])
      ∧ decodeArray
          (0 :: 0 :: 16 :: 0 :: 0 :: 0 :: 0 :: 1 :: List.replicate (2 ^ 44 + 1) 0) 27
        = .crash :=
  ⟨decodeUnsignedInteger_above_arrayLimit _,
    runItems_replicate_zero_nil (2 ^ 44 + 1),
    decodeArrayWith_crash decodeItem _ 27 (2 ^ 44 + 1) _
      (decodeUnsignedInteger_above_arrayLimit _) (by unfold maxAlloc; omega)⟩

theorem majorType_le (b : Byte) : b.val >>> 5 ≤ 7 := by
  have h := b.isLt
  rw [Nat.shiftRight_eq_div_pow]
  omega

/-- The switch duplicated in `decode` computes what the switch of `decodeItem`
computes. -/
theorem dispatchTop_eq_dispatchItem (b : Byte) (t : List Byte) :
    dispatchTop b t = dispatchItem decodeItem b t := by
  unfold dispatchTop dispatchItem
  simp only
  split_ifs
  · cases decodeUnsignedInteger t (b.val &&& 0x1f) <;> rfl
  · cases decodeNegativeInteger t (b.val &&& 0x1f) <;> rfl
  · cases decodeByteString t (b.val &&& 0x1f) <;> rfl
  · cases decodeTextString t (b.val &&& 0x1f) <;> rfl
  · show (match decodeArrayWith decodeItem t (b.val &&& 0x1f) with
      | .ok v rest => Res.ok (Value.array v) rest
      | .error e => .error e
      | .crash => .crash) = _
    cases decodeArrayWith decodeItem t (b.val &&& 0x1f) <;> rfl
  · rfl
  · rfl
  · rfl
  · rfl

theorem dispatchTop_eq_decodeItem (b : Byte) (t : List Byte) :
    dispatchTop b t = decodeItem (b :: t) := by
  rw [decodeItem_cons, dispatchTop_eq_dispatchItem]

theorem dispatchTop_length (b : Byte) (t : List Byte) (v : Value) (r : List Byte)
    (h : dispatchTop b t = .ok v r) : r.length ≤ t.length := by
  rw [dispatchTop_eq_decodeItem] at h
  have := decodeItem_length _ _ _ h
  simp only [List.length_cons] at this
  omega

/-- The iteration bound of the loop is immaterial once it exceeds the input length. -/
theorem decodeLoop_stable :
    ∀ (fuel : Nat) (s : List Byte) (acc : List Value),
      s.length < fuel → decodeLoop fuel s acc = decode s acc := by
  intro fuel
  induction fuel using Nat.strong_induction_on with
  | _ fuel ih =>
    intro s acc hs
    cases fuel with
    | zero => omega
    | succ g =>
      cases s with
      | nil => rfl
      | cons b t =>
        simp only [List.length_cons] at hs
        show (match dispatchTop b t with
            | .ok v rest2 => decodeLoop g rest2 (acc ++ [v])
            | .error e => .error e
            | .crash => .crash)
          = (match dispatchTop b t with
            | .ok v rest2 => decodeLoop (t.length + 1) rest2 (acc ++ [v])
            | .error e => .error e
            | .crash => .crash)
        cases hd : dispatchTop b t with
        | ok v r =>
          have hr := dispatchTop_length b t v r hd
          simp only
          rw [ih g (Nat.lt_succ_self g) r _ (by omega),
            ih (t.length + 1) (by omega) r _ (by omega)]
        | error e => rfl
        | crash => rfl

theorem decode_nil (acc : List Value) : decode [] acc = .ok acc [] := rfl

/-- The recursion equation of `decode`: one header byte, one item, then the loop
again on what the item left. -/
theorem decode_cons (b : Byte) (t : List Byte) (acc : List Value) :
    decode (b :: t) acc
      = match decodeItem (b :: t) with
        | .ok v rest => decode rest (acc ++ [v])
        | .error e => .error e
        | .crash => .crash := by
  rw [← dispatchTop_eq_decodeItem]
  show (match dispatchTop b t with
      | .ok v rest2 => decodeLoop (t.length + 1) rest2 (acc ++ [v])
      | .error e => .error e
      | .crash => .crash) = _
  cases hd : dispatchTop b t with
  | ok v r =>
    have hr := dispatchTop_length b t v r hd
    simp only
    rw [decodeLoop_stable (t.length + 1) r _ (by omega)]
  | error e => rfl
  | crash => rfl

theorem decodeLoop_eq_decodeByItems :
    ∀ (fuel : Nat) (s : List Byte) (acc : List Value),
      decodeLoop fuel s acc
        = match decodeByItems fuel s with
          | .ok vs r => .ok (acc ++ vs) r
          | .error e => .error e
          | .crash => .crash := by
  intro fuel
  induction fuel with
  | zero => intro s acc; rfl
  | succ g ih =>
    intro s acc
    cases s with
    | nil => simp [decodeLoop, decodeByItems, readByte]
    | cons b t =>
      show (match dispatchTop b t with
          | .ok v rest2 => decodeLoop g rest2 (acc ++ [v])
          | .error e => .error e
          | .crash => .crash) = _
      simp only [decodeByItems]
      rw [dispatchTop_eq_decodeItem]
      cases hd : decodeItem (b :: t) with
      | ok v r =>
        simp only
        rw [ih]
        cases decodeByItems g r with
        | ok vs r2 => simp
        | error e => rfl
        | crash => rfl
      | error e => rfl
      | crash => rfl

theorem Decode_eq_decode (data : List Byte) : Decode data = decode data [] := by
  unfold Decode
  cases decode data [] <;> rfl

/-- Claim C6: `Decode` produces the outcome of calling `decodeItem` repeatedly
from the start of the input until the end of the input is met at an item
boundary; the switch duplicated in `decode` agrees with `decodeItem` on every
header byte, and `decode` obeys the recursion equations of that iteration. -/
theorem Decode_eq_decodeByItems (data : List Byte) :
    Decode data = decodeByItems (data.length + 1) data
      ∧ (∀ (b : Byte) (t : List Byte), dispatchTop b t = decodeItem (b :: t))
      ∧ (∀ acc : List Value, decode [] acc = .ok acc [])
      ∧ (∀ (b : Byte) (t : List Byte) (acc : List Value),
          decode (b :: t) acc
            = match decodeItem (b :: t) with
              | .ok v rest => decode rest (acc ++ [v])
              | .error e => .error e
              | .crash => .crash) := by
  refine ⟨?_, dispatchTop_eq_decodeItem, decode_nil, decode_cons⟩
  rw [Decode_eq_decode]
  show decodeLoop (data.length + 1) data [] = _
  rw [decodeLoop_eq_decodeByItems]
  cases decodeByItems (data.length + 1) data with
  | ok vs r => simp
  | error e => rfl
  | crash => rfl

/-- Claim C7: `Decode` on the empty input returns an empty sequence and no
error. -/
theorem Decode_empty : Decode [] = .ok [] [] := rfl

theorem readFull_short (s : List Byte) (n : Nat) (h : s.length < n) :
    readFull s n = .error (if s.length = 0 then .eof else .unexpectedEOF) := by
  unfold readFull
  rw [if_neg (by omega)]
  split_ifs <;> rfl

/-- A length or value argument cut short is an error of the resolver. -/
theorem decodeUnsignedInteger_short (a w : Nat) (s : List Byte)
    (haw : (a, w) ∈ [(24, 1), (25, 2), (26, 4), (27, 8)]) (hs : s.length < w) :
    decodeUnsignedInteger s a = .error (if s.length = 0 then .eof else .unexpectedEOF) := by
  simp only [List.mem_cons, Prod.mk.injEq, List.mem_singleton, List.not_mem_nil, or_false] at haw
  rcases haw with ⟨rfl, rfl⟩ | ⟨rfl, rfl⟩ | ⟨rfl, rfl⟩ | ⟨rfl, rfl⟩
  · cases s with
    | nil => rfl
    | cons b t => simp at hs
  · unfold decodeUnsignedInteger
    rw [if_neg (by decide), if_pos rfl, readFull_short s 2 hs]
  · unfold decodeUnsignedInteger
    rw [if_neg (by decide), if_neg (by decide), if_pos rfl, readFull_short s 4 hs]
  · unfold decodeUnsignedInteger
    rw [if_neg (by decide), if_neg (by decide), if_neg (by decide), if_pos rfl,
      readFull_short s 8 hs]

theorem dispatchTop_error_of_resolve (b : Byte) (t : List Byte) (e : Err)
    (hb : b.val >>> 5 ≤ 4) (h : decodeUnsignedInteger t (b.val &&& 0x1f) = .error e) :
    dispatchTop b t = .error e := by
  unfold dispatchTop
  simp only [decodeNegativeInteger, decodeByteString, decodeTextString, decodeArray,
    decodeArrayWith, h, MajorTypeUnsignedInt, MajorTypeNegativeInt, MajorTypeByteString,
    MajorTypeTextString, MajorTypeArray]
  split_ifs <;> first | rfl | omega

/-- A first item of major type 0..4 whose length or value argument is cut short
makes `Decode` return an error. -/
theorem Decode_truncated_argument (b : Byte) (t : List Byte) (w : Nat)
    (hb : b.val >>> 5 ≤ 4)
    (haw : (b.val &&& 0x1f, w) ∈ [(24, 1), (25, 2), (26, 4), (27, 8)])
    (ht : t.length < w) :
    Decode (b :: t) = .error (if t.length = 0 then .eof else .unexpectedEOF) := by
  have h := dispatchTop_error_of_resolve b t _ hb (decodeUnsignedInteger_short _ w t haw ht)
  rw [Decode_eq_decode, decode_cons, ← dispatchTop_eq_decodeItem, h]

/-- Claim C8, evaluated at the failing inputs: a byte string, a text string and
an array header that declare `2 ^ 64 - 1` elements and are followed by no payload
make `Decode` panic in `make` rather than return an error; the single byte `18`
gives the error `io.EOF`, and a complete item gives a sequence. -/
theorem Decode_truncated_string_crash :
    Decode [0x5b, 0xff, 0xff, 0xff, 0xff, 0xff, 0xff, 0xff, 0xff] = .crash
      ∧ Decode [0x7b, 0xff, 0xff, 0xff, 0xff, 0xff, 0xff, 0xff, 0xff] = .crash
      ∧ Decode [0x9b, 0xff, 0xff, 0xff, 0xff, 0xff, 0xff, 0xff, 0xff] = .crash
      ∧ Decode [0x18] = .error .eof
      ∧ Decode [0x00] = .ok [.uint 0] [] :=
  ⟨rfl, rfl, rfl, rfl, rfl⟩

theorem dispatchItem_unsupported (item : List Byte → Res Value) (b : Byte) (t : List Byte)
    (hb : 5 ≤ b.val >>> 5) : dispatchItem item b t = .ok .nil t := by
  unfold dispatchItem
  simp only [MajorTypeUnsignedInt, MajorTypeNegativeInt, MajorTypeByteString,
    MajorTypeTextString, MajorTypeArray]
  split_ifs <;> first | rfl | omega

/-- Claim C9, amended: for every header byte of major type 5, 6 or 7, with any
additional-info, the item decoder returns the nil value and no error and
consumes only the header byte, both in the switch of `decode` and as an element
of an array decoded through `decodeItem`. -/
theorem decodeItem_unsupported_majorType (b : Byte) (t : List Byte) (hb : 5 ≤ b.val >>> 5) :
    decodeItem (b :: t) = .ok .nil t
      ∧ dispatchTop b t = .ok .nil t
      ∧ decodeArray (b :: t) 1 = .ok [.nil] t := by
  have h1 : decodeItem (b :: t) = .ok .nil t := by
    rw [decodeItem_cons, dispatchItem_unsupported _ _ _ hb]
  refine ⟨h1, by rw [dispatchTop_eq_decodeItem, h1], ?_⟩
  have hp : makeslicePanics 16 1 = false :=
    makeslicePanics_eq_false 16 1 (by unfold maxAlloc; omega)
  simp only [decodeArray, decodeArrayWith, decodeUnsignedInteger_of_le_23 1 (b :: t) (by omega), hp,
    decodeArrayLoop, h1]
  simp

theorem decodeItem_unsupported_majorType_witness :
    5 ≤ (0xa1 : Byte).val >>> 5 ∧ decodeItem [0xa1, 0x01] = .ok .nil [0x01] :=
  ⟨by decide, (decodeItem_unsupported_majorType 0xa1 [0x01] (by decide)).1⟩

/-- Claim C9, counterexample: the map header `A1` decodes to a nil value without
any error, at top level and inside an array. -/
theorem Decode_map_header_no_error :
    Decode [0xa1] = .ok [.nil] []
      ∧ (∀ e : Err, Decode [0xa1] ≠ .error e)
      ∧ Decode [0x81, 0xa1] = .ok [.array [.nil]] []
      ∧ (∀ e : Err, Decode [0x81, 0xa1] ≠ .error e) := by
  have h1 : Decode [0xa1] = .ok [.nil] [] := rfl
  have h2 : Decode [0x81, 0xa1] = .ok [.array [.nil]] [] := rfl
  refine ⟨h1, ?_, h2, ?_⟩
  · intro e; rw [h1]; simp
  · intro e; rw [h2]; simp

/-- Claim C10, evaluated at the failing inputs: additional-info 28 is rejected,
but 29, 30 and 31 reach the default branch and are returned as literal values
with nothing consumed. -/
theorem decodeUnsignedInteger_reserved (s : List Byte) :
    decodeUnsignedInteger s 28 = .error .info28
      ∧ decodeUnsignedInteger s 29 = .ok 29 s
      ∧ decodeUnsignedInteger s 30 = .ok 30 s
      ∧ decodeUnsignedInteger s 31 = .ok 31 s
      ∧ Decode [0x1f] = .ok [.uint 31] [] :=
  ⟨rfl, rfl, rfl, rfl, rfl⟩

/-- What `decodeByteString` does when the declared length exceeds the bytes that
remain: a panic in `make` above the allocation limit, the `io.ReadFull` error
otherwise. -/
theorem decodeByteString_short (s : List Byte) (a L : Nat) (rest : List Byte)
    (h : decodeUnsignedInteger s a = .ok L rest) (hL : rest.length < L) :
    decodeByteString s a
      = if maxAlloc < L then .crash
        else .error (if rest.length = 0 then .eof else .unexpectedEOF) := by
  by_cases hA : maxAlloc < L
  · rw [if_pos hA]
    exact decodeByteString_crash s a L rest h hA
  · rw [if_neg hA]
    have hp : makeslicePanics 1 L = false := makeslicePanics_eq_false 1 L (by omega)
    simp only [decodeByteString, h, hp, readFull_short rest L hL]
    simp

/-- Claim C11, evaluated on the code: when the declared length `L` exceeds the
bytes that remain, `decodeByteString` and `decodeTextString` return the
`io.ReadFull` error only while `L` is within the allocation limit; above it they
panic in `make`, as for the header argument `FF FF FF FF FF FF FF FF`. -/
theorem decodeByteString_truncated (s : List Byte) (a L : Nat) (rest : List Byte)
    (h : decodeUnsignedInteger s a = .ok L rest) (hL : rest.length < L) :
    decodeByteString s a
        = (if maxAlloc < L then .crash
          else .error (if rest.length = 0 then .eof else .unexpectedEOF))
      ∧ decodeTextString s a
        = (if maxAlloc < L then .crash
          else .error (if rest.length = 0 then .eof else .unexpectedEOF))
      ∧ decodeByteString [0xff, 0xff, 0xff, 0xff, 0xff, 0xff, 0xff, 0xff] 27 = .crash
      ∧ decodeTextString [0xff, 0xff, 0xff, 0xff, 0xff, 0xff, 0xff, 0xff] 27 = .crash :=
  ⟨decodeByteString_short s a L rest h hL, decodeByteString_short s a L rest h hL, rfl, rfl⟩

theorem decodeByteString_truncated_witness :
    decodeUnsignedInteger [0xff, 0xff, 0xff, 0xff, 0xff, 0xff, 0xff, 0xff] 27
        = .ok (2 ^ 64 - 1) []
      ∧ ([] : List Byte).length < 2 ^ 64 - 1
      ∧ decodeByteString [0xff, 0xff, 0xff, 0xff, 0xff, 0xff, 0xff, 0xff] 27
        = (if maxAlloc < 2 ^ 64 - 1 then .crash
          else .error (if ([] : List Byte).length = 0 then .eof else .unexpectedEOF)) :=
  ⟨rfl, by decide,
    (decodeByteString_truncated [0xff, 0xff, 0xff, 0xff, 0xff, 0xff, 0xff, 0xff] 27
      (2 ^ 64 - 1) [] (by rfl) (by decide)).1⟩

theorem decodeArrayLoop_error (item : List Byte → Res Value) (e : Err) :
    ∀ (i n : Nat) (s : List Byte) (acc vs : List Value) (r : List Byte),
      runItems item i s = some (vs, r) → item r = .error e → i < n →
      decodeArrayLoop item n s acc = .error e := by
  intro i
  induction i with
  | zero =>
    intro n s acc vs r hrun he hin
    simp only [runItems, Option.some.injEq, Prod.mk.injEq] at hrun
    obtain ⟨_, rfl⟩ := hrun
    obtain ⟨m, rfl⟩ : ∃ m, n = m + 1 := ⟨n - 1, by omega⟩
    simp only [decodeArrayLoop, he]
  | succ i ih =>
    intro n s acc vs r hrun he hin
    obtain ⟨m, rfl⟩ : ∃ m, n = m + 1 := ⟨n - 1, by omega⟩
    simp only [runItems] at hrun
    split at hrun
    · rename_i v rest hv
      split at hrun
      · rename_i vs1 r1 h1
        simp only [Option.some.injEq, Prod.mk.injEq] at hrun
        obtain ⟨_, rfl⟩ := hrun
        simp only [decodeArrayLoop, hv]
        exact ih m rest _ vs1 r1 h1 he (by omega)
      · simp at hrun
    · simp at hrun
    · simp at hrun

/-- What `decodeArray` does when an element fails: a panic in `make` above the
allocation limit, the error of the first failing element otherwise. -/
theorem decodeArray_element_error (s : List Byte) (a N i : Nat) (rest : List Byte)
    (vs : List Value) (r : List Byte) (e : Err)
    (h : decodeUnsignedInteger s a = .ok N rest) (hi : i < N)
    (hrun : runItems decodeItem i rest = some (vs, r)) (he : decodeItem r = .error e) :
    decodeArray s a = if maxAlloc < 16 * N then .crash else .error e := by
  by_cases hA : maxAlloc < 16 * N
  · rw [if_pos hA]
    exact decodeArrayWith_crash decodeItem s a N rest h hA
  · rw [if_neg hA]
    have hp : makeslicePanics 16 N = false := makeslicePanics_eq_false 16 N (by omega)
    simp only [decodeArray, decodeArrayWith, h, hp,
      decodeArrayLoop_error decodeItem e i N rest [] vs r hrun he hi]
    simp

/-- Claim C12, evaluated on the code: when the count resolves to `N`, the first
`i < N` elements decode and element `i` fails with error `e`, `decodeArray`
returns exactly `e` and no array only while `16 * N` is within the allocation
limit; above it `decodeArray` panics in `make` before any element is read, as for
the header argument `FF FF FF FF FF FF FF FF` with no elements. -/
theorem decodeArray_first_error (s : List Byte) (a N i : Nat) (rest : List Byte)
    (vs : List Value) (r : List Byte) (e : Err)
    (h : decodeUnsignedInteger s a = .ok N rest) (hi : i < N)
    (hrun : runItems decodeItem i rest = some (vs, r)) (he : decodeItem r = .error e) :
    decodeArray s a = (if maxAlloc < 16 * N then .crash else .error e)
      ∧ decodeItem [] = .error .eof
      ∧ decodeArray [0xff, 0xff, 0xff, 0xff, 0xff, 0xff, 0xff, 0xff] 27 = .crash
      ∧ decodeArray [0x01] 2 = .error .eof :=
  ⟨decodeArray_element_error s a N i rest vs r e h hi hrun he, rfl, rfl, rfl⟩

theorem decodeArray_first_error_witness :
    decodeUnsignedInteger [0xff, 0xff, 0xff, 0xff, 0xff, 0xff, 0xff, 0xff] 27
        = .ok (2 ^ 64 - 1) []
      ∧ 0 < 2 ^ 64 - 1
      ∧ runItems decodeItem 0 [] = some ([], [])
      ∧ decodeItem [] = .error .eof
      ∧ decodeArray [0xff, 0xff, 0xff, 0xff, 0xff, 0xff, 0xff, 0xff] 27
        = (if maxAlloc < 16 * (2 ^ 64 - 1) then .crash else .error .eof) :=
  ⟨rfl, by decide, rfl, rfl,
    (decodeArray_first_error [0xff, 0xff, 0xff, 0xff, 0xff, 0xff, 0xff, 0xff] 27
      (2 ^ 64 - 1) 0 [] [] [] .eof (by rfl) (by decide) rfl rfl).1⟩

/-- The accumulator of `decode` is only ever appended to. -/
theorem decode_acc (s : List Byte) (acc : List Value) :
    decode s acc
      = match decode s [] with
        | .ok vs r => .ok (acc ++ vs) r
        | .error e => .error e
        | .crash => .crash := by
  show decodeLoop (s.length + 1) s acc
    = match decodeLoop (s.length + 1) s [] with
      | .ok vs r => .ok (acc ++ vs) r
      | .error e => .error e
      | .crash => .crash
  rw [decodeLoop_eq_decodeByItems (s.length + 1) s acc,
    decodeLoop_eq_decodeByItems (s.length + 1) s []]
  cases decodeByItems (s.length + 1) s with
  | ok vs r => simp
  | error e => rfl
  | crash => rfl

theorem decode_of_Decode (s : List Byte) (acc vs : List Value) (r : List Byte)
    (h : Decode s = .ok vs r) : decode s acc = .ok (acc ++ vs) r := by
  rw [Decode_eq_decode] at h
  rw [decode_acc, h]

theorem decode_error_of_Decode (s : List Byte) (acc : List Value) (e : Err)
    (h : Decode s = .error e) : decode s acc = .error e := by
  rw [Decode_eq_decode] at h
  rw [decode_acc, h]

/-- After `i` top-level items the loop is where a fresh pass over the rest
would be, with the items decoded so far in `dec.result`. -/
theorem decode_of_runItems :
    ∀ (i : Nat) (s : List Byte) (acc vs : List Value) (r : List Byte),
      runItems decodeItem i s = some (vs, r) → decode s acc = decode r (acc ++ vs) := by
  intro i
  induction i with
  | zero =>
    intro s acc vs r h
    simp only [runItems, Option.some.injEq, Prod.mk.injEq] at h
    obtain ⟨rfl, rfl⟩ := h
    rw [List.append_nil]
  | succ i ih =>
    intro s acc vs r h
    simp only [runItems] at h
    split at h
    · rename_i v rest hv
      split at h
      · rename_i vs1 r1 h1
        simp only [Option.some.injEq, Prod.mk.injEq] at h
        obtain ⟨rfl, rfl⟩ := h
        cases s with
        | nil => simp [decodeItem_nil] at hv
        | cons b t =>
          rw [decode_cons, hv]
          simp only
          rw [ih rest (acc ++ [v]) vs1 r1 h1, List.append_assoc, List.singleton_append]
      · simp at h
    · simp at h
    · simp at h

/-- Claim C13: when the first `i` top-level items decode and the next item, whose
header byte is present, fails with error `e`, `Decode` returns exactly `e` and no
sequence, however many items were decoded before it. -/
theorem Decode_first_error (data : List Byte) (i : Nat) (vs : List Value) (b : Byte)
    (t : List Byte) (e : Err)
    (hrun : runItems decodeItem i data = some (vs, b :: t))
    (he : decodeItem (b :: t) = .error e) :
    Decode data = .error e := by
  rw [Decode_eq_decode, decode_of_runItems i data [] vs (b :: t) hrun, decode_cons, he]

theorem Decode_first_error_witness :
    runItems decodeItem 2 [0x01, 0x02, 0x18] = some ([.uint 1, .uint 2], [0x18])
      ∧ decodeItem [0x18] = .error .eof
      ∧ Decode [0x01, 0x02, 0x18] = .error .eof :=
  ⟨rfl, rfl, Decode_first_error [0x01, 0x02, 0x18] 2 [.uint 1, .uint 2] 0x18 [] .eof rfl rfl⟩

/-- Claim C14: each end-to-end example of the spec decodes to a one-element
sequence with the stated value: `00`, `17`, `18 FF`, `20`, `41 41` and
`83 01 02 03`. -/
theorem Decode_examples :
    Decode [0x00] = .ok [.uint 0] []
      ∧ Decode [0x17] = .ok [.uint 23] []
      ∧ Decode [0x18, 0xff] = .ok [.uint 255] []
      ∧ Decode [0x20] = .ok [.negint (-1)] []
      ∧ Decode [0x41, 0x41] = .ok [.bytes [0x41]] []
      ∧ Decode [0x83, 0x01, 0x02, 0x03] = .ok [.array [.uint 1, .uint 2, .uint 3]] [] :=
  ⟨rfl, rfl, rfl, rfl, rfl, rfl⟩

theorem Decoder_Decode_eq (dec : Decoder) : dec.Decode = Decode dec.bf := rfl

/-- Claim C15: two decode passes by decoders over the same bytes return equal
outcomes, the same error or equal sequences, whatever `result` the decoders held
before; in particular two fresh decoders made by `NewDecoder` over one buffer
agree, and their outcome is a function of the bytes alone. -/
theorem Decode_deterministic (data : List Byte) :
    (NewDecoder data).Decode = (NewDecoder data).Decode
      ∧ (∀ dec1 dec2 : Decoder, dec1.bf = data → dec2.bf = data → dec1.Decode = dec2.Decode)
      ∧ (NewDecoder data).Decode = Decode data := by
  refine ⟨rfl, ?_, rfl⟩
  intro dec1 dec2 h1 h2
  rw [Decoder_Decode_eq, Decoder_Decode_eq, h1, h2]

/-- Claim C16: for every header byte `b` the split gives `majorType = b >> 5`,
the top three bits, in 0..7 and `additionalInfo = b & 0x1f`, the bottom five
bits, in 0..31, with `b = 32 * majorType + additionalInfo`; reading the header
consumes exactly one byte, and the switch of the top-level loop and the switch of
`decodeItem` see the same split. -/
theorem headerSplit_spec (b : Byte) :
    (headerSplit b).1 = b.val / 32
      ∧ (headerSplit b).1 ≤ 7
      ∧ (headerSplit b).2 = b.val % 32
      ∧ (headerSplit b).2 ≤ 31
      ∧ b.val = 32 * (headerSplit b).1 + (headerSplit b).2
      ∧ (∀ t : List Byte, readByte (b :: t) = .ok b t)
      ∧ (∀ t : List Byte, dispatchTop b t = dispatchItem decodeItem b t)
      ∧ (∀ t : List Byte, decodeItem (b :: t) = dispatchItem decodeItem b t) := by
  have hb := b.isLt
  have h1 : b.val >>> 5 = b.val / 32 := by
    rw [Nat.shiftRight_eq_div_pow]
  have h2 : b.val &&& 0x1f = b.val % 32 := Nat.and_pow_two_sub_one_eq_mod b.val 5
  refine ⟨h1, ?_, h2, ?_, ?_, fun _ => rfl, dispatchTop_eq_dispatchItem b, decodeItem_cons b⟩
  · show b.val >>> 5 ≤ 7
    omega
  · show b.val &&& 0x1f ≤ 31
    omega
  · show b.val = 32 * (b.val >>> 5) + (b.val &&& 0x1f)
    omega

/-- Claim C17: a header byte of major type 5, 6 or 7 consumes only itself, gives
no error and emits the nil value; the bytes after it are decoded as separate
items, so when `Decode t` succeeds with `r`, `Decode` of the header followed by
`t` succeeds with nil followed by `r`. -/
theorem Decode_unsupported_header (b : Byte) (t : List Byte) (r : List Value)
    (rest : List Byte) (hb : 5 ≤ b.val >>> 5) (h : Decode t = .ok r rest) :
    decodeItem (b :: t) = .ok .nil t ∧ Decode (b :: t) = .ok (.nil :: r) rest := by
  have h1 : decodeItem (b :: t) = .ok .nil t := by
    rw [decodeItem_cons, dispatchItem_unsupported _ _ _ hb]
  refine ⟨h1, ?_⟩
  rw [Decode_eq_decode, decode_cons, h1]
  simp only
  rw [decode_of_Decode t _ r rest h]
  rfl

theorem Decode_unsupported_header_witness :
    5 ≤ (0xa1 : Byte).val >>> 5
      ∧ Decode [0x01, 0x02] = .ok [.uint 1, .uint 2] []
      ∧ Decode [0xa1, 0x01, 0x02] = .ok [.nil, .uint 1, .uint 2] [] :=
  ⟨by decide, rfl,
    (Decode_unsupported_header 0xa1 [0x01, 0x02] [.uint 1, .uint 2] [] (by decide) rfl).2⟩

theorem readFull_append (s b : List Byte) (n : Nat) (v r : List Byte)
    (h : readFull s n = .ok v r) : readFull (s ++ b) n = .ok v (r ++ b) := by
  obtain ⟨hn, rfl, rfl⟩ := (readFull_ok_iff _ _ _ _).1 h
  rw [readFull_of_le (s ++ b) n (by rw [List.length_append]; omega),
    List.take_append_of_le_length hn, List.drop_append_of_le_length hn]

theorem readByte_append (s b : List Byte) (x : Byte) (r : List Byte)
    (h : readByte s = .ok x r) : readByte (s ++ b) = .ok x (r ++ b) := by
  cases s with
  | nil => simp [readByte] at h
  | cons y t =>
    simp only [readByte, Res.ok.injEq] at h
    obtain ⟨rfl, rfl⟩ := h
    rfl

/-- Appending bytes to the source does not change a successful resolve. -/
theorem decodeUnsignedInteger_append (s b : List Byte) (a n : Nat) (r : List Byte)
    (h : decodeUnsignedInteger s a = .ok n r) :
    decodeUnsignedInteger (s ++ b) a = .ok n (r ++ b) := by
  unfold decodeUnsignedInteger at h ⊢
  split_ifs at h ⊢
  · split at h
    · rename_i x r1 hx
      simp only [Res.ok.injEq] at h
      obtain ⟨rfl, rfl⟩ := h
      rw [readByte_append s b x r1 hx]
    · simp at h
    · simp at h
  · split at h
    · rename_i x r1 hx
      simp only [Res.ok.injEq] at h
      obtain ⟨rfl, rfl⟩ := h
      rw [readFull_append s b 2 x r1 hx]
    · simp at h
    · simp at h
  · split at h
    · rename_i x r1 hx
      simp only [Res.ok.injEq] at h
      obtain ⟨rfl, rfl⟩ := h
      rw [readFull_append s b 4 x r1 hx]
    · simp at h
    · simp at h
  · split at h
    · rename_i x r1 hx
      simp only [Res.ok.injEq] at h
      obtain ⟨rfl, rfl⟩ := h
      rw [readFull_append s b 8 x r1 hx]
    · simp at h
    · simp at h
  · simp only [Res.ok.injEq] at h
    obtain ⟨rfl, rfl⟩ := h
    rfl

theorem decodeNegativeInteger_append (s b : List Byte) (a : Nat) (z : Int) (r : List Byte)
    (h : decodeNegativeInteger s a = .ok z r) :
    decodeNegativeInteger (s ++ b) a = .ok z (r ++ b) := by
  unfold decodeNegativeInteger at h ⊢
  split at h
  · rename_i n r1 hn
    simp only [Res.ok.injEq] at h
    obtain ⟨rfl, rfl⟩ := h
    rw [decodeUnsignedInteger_append s b a n r1 hn]
  · simp at h
  · simp at h

theorem decodeByteString_append (s b : List Byte) (a : Nat) (v r : List Byte)
    (h : decodeByteString s a = .ok v r) :
    decodeByteString (s ++ b) a = .ok v (r ++ b) := by
  unfold decodeByteString at h ⊢
  split at h
  · rename_i n r1 hn
    rw [decodeUnsignedInteger_append s b a n r1 hn]
    simp only
    split_ifs at h ⊢
    split at h
    · rename_i d r2 hd
      simp only [Res.ok.injEq] at h
      obtain ⟨rfl, rfl⟩ := h
      rw [readFull_append r1 b n d r2 hd]
    · simp at h
    · simp at h
  · simp at h
  · simp at h

theorem decodeArrayLoop_append (item : List Byte → Res Value) (b : List Byte) :
    ∀ (n : Nat) (s : List Byte) (acc vs : List Value) (r : List Byte),
      (∀ (s2 : List Byte) (v : Value) (r2 : List Byte), s2.length ≤ s.length →
        item s2 = .ok v r2 → r2.length ≤ s2.length ∧ item (s2 ++ b) = .ok v (r2 ++ b)) →
      decodeArrayLoop item n s acc = .ok vs r →
      decodeArrayLoop item n (s ++ b) acc = .ok vs (r ++ b) := by
  intro n
  induction n with
  | zero =>
    intro s acc vs r _ h
    simp only [decodeArrayLoop, Res.ok.injEq] at h ⊢
    obtain ⟨rfl, rfl⟩ := h
    exact ⟨rfl, rfl⟩
  | succ n ih =>
    intro s acc vs r hitem h
    simp only [decodeArrayLoop] at h ⊢
    split at h
    · rename_i v r1 hv
      obtain ⟨hlen, happ⟩ := hitem s v r1 (Nat.le_refl _) hv
      rw [happ]
      simp only
      exact ih r1 _ vs r
        (fun s2 v2 r2 h2 => hitem s2 v2 r2 (Nat.le_trans h2 hlen)) h
    · simp at h
    · simp at h

theorem decodeArrayWith_append (item : List Byte → Res Value) (s b : List Byte) (a : Nat)
    (vs : List Value) (r : List Byte)
    (hitem : ∀ (s2 : List Byte) (v : Value) (r2 : List Byte), s2.length ≤ s.length →
      item s2 = .ok v r2 → r2.length ≤ s2.length ∧ item (s2 ++ b) = .ok v (r2 ++ b))
    (h : decodeArrayWith item s a = .ok vs r) :
    decodeArrayWith item (s ++ b) a = .ok vs (r ++ b) := by
  unfold decodeArrayWith at h ⊢
  split at h
  · rename_i n r1 hn
    rw [decodeUnsignedInteger_append s b a n r1 hn]
    simp only
    split_ifs at h ⊢
    exact decodeArrayLoop_append item b n r1 [] vs r
      (fun s2 v2 r2 h2 =>
        hitem s2 v2 r2 (Nat.le_trans h2 (decodeUnsignedInteger_length _ _ _ _ hn))) h
  · simp at h
  · simp at h

theorem toValue_of_ok {α : Type} (f : α → Value) (x : Res α) (w : α) (r : List Byte)
    (h : x = .ok w r) : x.toValue f = .ok (f w) r := by
  rw [h]; rfl

theorem dispatchItem_append (item : List Byte → Res Value) (x : Byte) (s b : List Byte)
    (v : Value) (r : List Byte)
    (hitem : ∀ (s2 : List Byte) (v : Value) (r2 : List Byte), s2.length ≤ s.length →
      item s2 = .ok v r2 → r2.length ≤ s2.length ∧ item (s2 ++ b) = .ok v (r2 ++ b))
    (h : dispatchItem item x s = .ok v r) :
    dispatchItem item x (s ++ b) = .ok v (r ++ b) := by
  unfold dispatchItem at h ⊢
  simp only at h ⊢
  split_ifs at h ⊢
  · obtain ⟨w, hw, rfl⟩ := toValue_ok _ _ _ _ h
    exact toValue_of_ok _ _ _ _ (decodeUnsignedInteger_append _ b _ _ _ hw)
  · obtain ⟨w, hw, rfl⟩ := toValue_ok _ _ _ _ h
    exact toValue_of_ok _ _ _ _ (decodeNegativeInteger_append _ b _ _ _ hw)
  · obtain ⟨w, hw, rfl⟩ := toValue_ok _ _ _ _ h
    exact toValue_of_ok _ _ _ _ (decodeByteString_append _ b _ _ _ hw)
  · obtain ⟨w, hw, rfl⟩ := toValue_ok _ _ _ _ h
    exact toValue_of_ok _ _ _ _ (decodeByteString_append _ b _ _ _ hw)
  · obtain ⟨w, hw, rfl⟩ := toValue_ok _ _ _ _ h
    exact toValue_of_ok _ _ _ _ (decodeArrayWith_append item _ b _ _ _ hitem hw)
  · simp only [Res.ok.injEq] at h ⊢
    obtain ⟨rfl, rfl⟩ := h
    exact ⟨rfl, rfl⟩

/-- Appending bytes to the source does not change a successful item decode. -/
theorem decodeItem_append (b : List Byte) :
    ∀ (n : Nat) (s : List Byte) (v : Value) (r : List Byte), s.length ≤ n →
      decodeItem s = .ok v r → decodeItem (s ++ b) = .ok v (r ++ b) := by
  intro n
  induction n with
  | zero =>
    intro s v r hs h
    cases s with
    | nil => simp [decodeItem_nil] at h
    | cons x t => simp at hs
  | succ n ih =>
    intro s v r hs h
    cases s with
    | nil => simp [decodeItem_nil] at h
    | cons x t =>
      simp only [List.length_cons] at hs
      rw [decodeItem_cons] at h
      rw [List.cons_append, decodeItem_cons]
      apply dispatchItem_append decodeItem x t b v r _ h
      intro s2 v2 r2 h2 hv2
      exact ⟨Nat.le_of_lt (decodeItem_length s2 v2 r2 hv2), ih s2 v2 r2 (by omega) hv2⟩

/-- After a complete prefix of items the loop continues on the appended bytes. -/
theorem decode_append (b : List Byte) :
    ∀ (n : Nat) (a : List Byte) (acc ra : List Value) (r : List Byte), a.length ≤ n →
      decode a acc = .ok ra r → decode (a ++ b) acc = decode b ra := by
  intro n
  induction n with
  | zero =>
    intro a acc ra r ha h
    cases a with
    | nil =>
      rw [decode_nil] at h
      simp only [Res.ok.injEq] at h
      rw [List.nil_append, h.1]
    | cons x t => simp at ha
  | succ n ih =>
    intro a acc ra r ha h
    cases a with
    | nil =>
      rw [decode_nil] at h
      simp only [Res.ok.injEq] at h
      rw [List.nil_append, h.1]
    | cons x t =>
      simp only [List.length_cons] at ha
      rw [decode_cons] at h
      cases hv : decodeItem (x :: t) with
      | ok v r1 =>
        rw [hv] at h
        simp only at h
        have hlen := decodeItem_length _ _ _ hv
        simp only [List.length_cons] at hlen
        have happ := decodeItem_append b (t.length + 1) (x :: t) v r1 (by simp) hv
        rw [List.cons_append] at happ
        rw [List.cons_append, decode_cons, happ]
        simp only
        exact ih r1 _ ra r (by omega) h
      | error e => rw [hv] at h; simp at h
      | crash => rw [hv] at h; simp at h

/-- Claim C18: when `Decode a` succeeds with `ra`, `Decode (a ++ b)` is the
outcome of `Decode b` with `ra` put in front of its sequence: it succeeds exactly
when `Decode b` succeeds, with `ra` followed by the sequence of `Decode b`, and
fails as `Decode b` fails. -/
theorem Decode_append (a b : List Byte) (ra : List Value) (r : List Byte)
    (h : Decode a = .ok ra r) :
    Decode (a ++ b)
        = (match Decode b with
          | .ok rb r2 => .ok (ra ++ rb) r2
          | .error e => .error e
          | .crash => .crash)
      ∧ ((∃ rs r2, Decode (a ++ b) = .ok rs r2) ↔ (∃ rb r2, Decode b = .ok rb r2)) := by
  have h1 : Decode (a ++ b)
      = (match Decode b with
        | .ok rb r2 => .ok (ra ++ rb) r2
        | .error e => .error e
        | .crash => .crash) := by
    rw [Decode_eq_decode] at h
    rw [Decode_eq_decode, Decode_eq_decode,
      decode_append b a.length a [] ra r (Nat.le_refl _) h, decode_acc]
  refine ⟨h1, ?_⟩
  rw [h1]
  cases Decode b with
  | ok rb r2 => exact ⟨fun _ => ⟨rb, r2, rfl⟩, fun _ => ⟨ra ++ rb, r2, rfl⟩⟩
  | error e => exact ⟨fun ⟨_, _, h⟩ => by simp at h, fun ⟨_, _, h⟩ => by simp at h⟩
  | crash => exact ⟨fun ⟨_, _, h⟩ => by simp at h, fun ⟨_, _, h⟩ => by simp at h⟩

theorem Decode_append_witness :
    Decode [0x01, 0x02] = .ok [.uint 1, .uint 2] []
      ∧ Decode ([0x01, 0x02] ++ [0x81, 0x03])
        = (match Decode [0x81, 0x03] with
          | .ok rb r2 => .ok ([.uint 1, .uint 2] ++ rb) r2
          | .error e => .error e
          | .crash => .crash)
      ∧ Decode [0x01, 0x02, 0x81, 0x03] = .ok [.uint 1, .uint 2, .array [.uint 3]] [] :=
  ⟨rfl, (Decode_append [0x01, 0x02] [0x81, 0x03] [.uint 1, .uint 2] [] rfl).1, rfl⟩

theorem countList_append (xs ys : List Value) :
    countList (xs ++ ys) = countList xs + countList ys := by
  induction xs with
  | nil => simp [countList]
  | cons v vs ih => simp [countList, ih, Nat.add_assoc]

theorem Value.count_pos (v : Value) : 1 ≤ v.count := by
  cases v <;> simp [Value.count]

theorem length_le_countList (xs : List Value) : xs.length ≤ countList xs := by
  induction xs with
  | nil => simp [countList]
  | cons v vs ih =>
    have := Value.count_pos v
    simp only [List.length_cons, countList]
    omega

mutual
theorem Value.depth_le_count : ∀ v : Value, v.depth ≤ v.count
  | .array xs => by
    have := depthList_le_countList xs
    simp only [Value.depth, Value.count]
    omega
  | .uint _ => by simp [Value.depth, Value.count]
  | .negint _ => by simp [Value.depth, Value.count]
  | .bytes _ => by simp [Value.depth, Value.count]
  | .text _ => by simp [Value.depth, Value.count]
  | .nil => by simp [Value.depth, Value.count]
theorem depthList_le_countList : ∀ xs : List Value, depthList xs ≤ countList xs
  | [] => by simp [depthList, countList]
  | v :: vs => by
    have h1 := Value.depth_le_count v
    have h2 := depthList_le_countList vs
    simp only [depthList, countList]
    omega
end

theorem decodeArrayLoop_count (item : List Byte → Res Value)
    (hitem : ∀ s v r, item s = .ok v r → r.length + v.count ≤ s.length) :
    ∀ (n : Nat) (s : List Byte) (acc vs : List Value) (r : List Byte),
      decodeArrayLoop item n s acc = .ok vs r →
      r.length + countList vs ≤ s.length + countList acc := by
  intro n
  induction n with
  | zero =>
    intro s acc vs r h
    simp only [decodeArrayLoop, Res.ok.injEq] at h
    obtain ⟨rfl, rfl⟩ := h
    exact Nat.le_refl _
  | succ n ih =>
    intro s acc vs r h
    simp only [decodeArrayLoop] at h
    split at h
    · rename_i v r1 hv
      have h1 := ih _ _ _ _ h
      have h2 := hitem _ _ _ hv
      rw [countList_append] at h1
      simp only [countList] at h1
      omega
    · simp at h
    · simp at h

theorem dispatchItem_count (item : List Byte → Res Value)
    (hitem : ∀ s v r, item s = .ok v r → r.length + v.count ≤ s.length)
    (b : Byte) (bf : List Byte) (v : Value) (r : List Byte)
    (h : dispatchItem item b bf = .ok v r) : r.length + v.count ≤ bf.length + 1 := by
  unfold dispatchItem at h
  simp only at h
  split_ifs at h
  · obtain ⟨w, hw, rfl⟩ := toValue_ok _ _ _ _ h
    have := decodeUnsignedInteger_length _ _ _ _ hw
    simp only [Value.count]; omega
  · obtain ⟨w, hw, rfl⟩ := toValue_ok _ _ _ _ h
    have := decodeNegativeInteger_length _ _ _ _ hw
    simp only [Value.count]; omega
  · obtain ⟨w, hw, rfl⟩ := toValue_ok _ _ _ _ h
    have := decodeByteString_length _ _ _ _ hw
    simp only [Value.count]; omega
  · obtain ⟨w, hw, rfl⟩ := toValue_ok _ _ _ _ h
    have := decodeByteString_length _ _ _ _ hw
    simp only [Value.count]; omega
  · obtain ⟨w, hw, rfl⟩ := toValue_ok _ _ _ _ h
    unfold decodeArrayWith at hw
    split at hw
    · rename_i n r1 hn
      have h1 := decodeUnsignedInteger_length _ _ _ _ hn
      split_ifs at hw
      have h2 := decodeArrayLoop_count item hitem _ _ _ _ _ hw
      simp only [countList] at h2
      simp only [Value.count]; omega
    · simp at hw
    · simp at hw
  · simp only [Res.ok.injEq] at h
    obtain ⟨rfl, rfl⟩ := h
    simp only [Value.count]; omega

theorem decodeItemFuel_count :
    ∀ (fuel : Nat) (s : List Byte) (v : Value) (r : List Byte),
      decodeItemFuel fuel s = .ok v r → r.length + v.count ≤ s.length := by
  intro fuel
  induction fuel with
  | zero =>
    intro s v r h
    simp [decodeItemFuel] at h
  | succ f ih =>
    intro s v r h
    cases s with
    | nil => simp [decodeItemFuel, readByte] at h
    | cons b t =>
      simp only [decodeItemFuel, readByte] at h
      have := dispatchItem_count (decodeItemFuel f) ih b t v r h
      simp only [List.length_cons]
      omega

/-- Every value decoded by an item decode, at any nesting level, is paid for by
at least one byte of the source. -/
theorem decodeItem_count (s : List Byte) (v : Value) (r : List Byte)
    (h : decodeItem s = .ok v r) : r.length + v.count ≤ s.length :=
  decodeItemFuel_count _ s v r h

theorem decodeLoop_count :
    ∀ (fuel : Nat) (s : List Byte) (acc vs : List Value) (r : List Byte),
      decodeLoop fuel s acc = .ok vs r →
      r.length + countList vs ≤ s.length + countList acc := by
  intro fuel
  induction fuel with
  | zero =>
    intro s acc vs r h
    simp [decodeLoop] at h
  | succ f ih =>
    intro s acc vs r h
    cases s with
    | nil =>
      simp only [decodeLoop, readByte, Res.ok.injEq] at h
      obtain ⟨rfl, rfl⟩ := h
      exact Nat.le_refl _
    | cons b t =>
      simp only [decodeLoop, readByte] at h
      split at h
      · rename_i v r1 hv
        rw [dispatchTop_eq_decodeItem] at hv
        have h1 := decodeItem_count _ _ _ hv
        have h2 := ih _ _ _ _ h
        rw [countList_append] at h2
        simp only [countList] at h2
        simp only [List.length_cons] at h1 ⊢
        omega
      · simp at h
      · simp at h

theorem decodeItemFuelWith_eq (junk : Res Value) :
    ∀ (fuel : Nat) (s : List Byte), s.length < fuel →
      decodeItemFuelWith junk fuel s = decodeItem s := by
  intro fuel
  induction fuel with
  | zero => intro s hs; omega
  | succ g ih =>
    intro s hs
    cases s with
    | nil => rfl
    | cons b t =>
      simp only [List.length_cons] at hs
      rw [decodeItem_cons]
      show dispatchItem (decodeItemFuelWith junk g) b t = dispatchItem decodeItem b t
      symm
      apply dispatchItem_congr decodeItem _
        (fun s v r h => Nat.le_of_lt (decodeItem_length s v r h))
      intro s2 h2
      exact (ih s2 (by omega)).symm

theorem decodeLoopWith_eq (junk : Res (List Value)) :
    ∀ (fuel : Nat) (s : List Byte) (acc : List Value), s.length < fuel →
      decodeLoopWith junk fuel s acc = decode s acc := by
  intro fuel
  induction fuel with
  | zero => intro s acc hs; omega
  | succ g ih =>
    intro s acc hs
    cases s with
    | nil => rfl
    | cons b t =>
      simp only [List.length_cons] at hs
      rw [decode_cons, ← dispatchTop_eq_decodeItem]
      show (match dispatchTop b t with
          | .ok v rest2 => decodeLoopWith junk g rest2 (acc ++ [v])
          | .error e => .error e
          | .crash => .crash) = _
      cases hd : dispatchTop b t with
      | ok v r =>
        have hr := dispatchTop_length b t v r hd
        simp only
        exact ih r _ (by omega)
      | error e => rfl
      | crash => rfl

/-- Claim C19: decoding terminates on every input: a successful `decodeItem`
consumes at least one byte, and with a bound above the number of remaining bytes
neither the recursion of `decodeItem` and `decodeArray` nor the loop of `decode`
exhausts the bound, whatever an exhausted bound would give; on success the number
of decoded values at all nesting levels, hence the nesting depth and the length
of the top-level sequence, is at most the length of the input. -/
theorem Decode_terminates (data : List Byte) :
    (∀ (v : Value) (r : List Byte), decodeItem data = .ok v r →
        r.length < data.length ∧ r.length + v.count ≤ data.length)
      ∧ (∀ (junk : Res Value) (fuel : Nat), data.length < fuel →
          decodeItemFuelWith junk fuel data = decodeItem data)
      ∧ (∀ (junk : Res (List Value)) (fuel : Nat) (acc : List Value), data.length < fuel →
          decodeLoopWith junk fuel data acc = decode data acc)
      ∧ (∀ (vs : List Value) (r : List Byte), Decode data = .ok vs r →
          countList vs ≤ data.length ∧ vs.length ≤ countList vs
            ∧ depthList vs ≤ countList vs) := by
  refine ⟨fun v r h => ⟨decodeItem_length _ _ _ h, decodeItem_count _ _ _ h⟩,
    fun junk fuel h => decodeItemFuelWith_eq junk fuel data h,
    fun junk fuel acc h => decodeLoopWith_eq junk fuel data acc h, ?_⟩
  intro vs r h
  rw [Decode_eq_decode] at h
  have h1 := decodeLoop_count (data.length + 1) data [] vs r h
  simp only [countList] at h1
  exact ⟨by omega, length_le_countList vs, depthList_le_countList vs⟩

theorem Decode_terminates_witness :
    Decode [0x82, 0x81, 0x01, 0x02] = .ok [.array [.array [.uint 1], .uint 2]] []
      ∧ countList [.array [.array [.uint 1], .uint 2]]
          ≤ ([0x82, 0x81, 0x01, 0x02] : List Byte).length
      ∧ countList [.array [.array [.uint 1], .uint 2]] = 4 :=
  ⟨rfl, ((Decode_terminates [0x82, 0x81, 0x01, 0x02]).2.2.2 _ _ rfl).1, rfl⟩

theorem Decode_deterministic_witness :
    (Decoder.mk [0x01, 0x02] []).bf = [0x01, 0x02]
      ∧ (Decoder.mk [0x01, 0x02] [.nil]).bf = [0x01, 0x02]
      ∧ (Decoder.mk [0x01, 0x02] []).Decode = (Decoder.mk [0x01, 0x02] [.nil]).Decode :=
  ⟨rfl, rfl,
    (Decode_deterministic [0x01, 0x02]).2.1 (Decoder.mk [0x01, 0x02] [])
      (Decoder.mk [0x01, 0x02] [.nil]) rfl rfl⟩

end CborDemo
